import Mathlib

/-!
Shallow embedding of the yecs entity-component-system engine and proofs about
its specification.  The definitions below are translated from the C++ sources:
src/yecs/component_storage.h, src/yecs/entity_set.h, src/yecs/entity_query.cc,
src/yecs/world.h and the implementation file src/unnamed/part_002 (the current
world.cc, with the taskflow-based Run).  STL containers are modelled as lists:
std::vector T as List T, std::unordered_map K V as an association list
List (K × V) whose iteration order stands in for the unspecified bucket order.
Machine integers (uint32_t entity ids, size_t indices) are modelled as Nat;
none of the modelled operations performs wrapping arithmetic on them, the only
sentinel comparison (kInvalidEntity) is kept explicit.
-/

namespace Yecs

/-- Entity ids: uint32_t in src/yecs/common.h. -/
abbrev Entity := Nat

/-- Component indices: size_t in src/yecs/common.h. -/
abbrev ComponentIndex := Nat

/-- Model of std::type_index keys used by the component and system maps. -/
abbrev TypeId := Nat

/-- kInvalidEntity = ~0u (src/yecs/common.h line 35). -/
def kInvalidEntity : Nat := 2 ^ 32 - 1

/-- kEntitySizeIncrement = 128 (src/yecs/world.h line 531). -/
def kEntitySizeIncrement : Nat := 128

/-- DenseComponentStorage of T (src/yecs/component_storage.h lines 57-94): a
dense vector of components plus an unordered map from entity id to the index
of that entity's component in the dense vector. -/
structure DenseComponentStorage (T : Type) where
  component_index : List (Entity × ComponentIndex)
  components : List T
deriving DecidableEq

namespace DenseComponentStorage

variable {T : Type}

/-- A default-constructed (empty) storage. -/
def empty : DenseComponentStorage T := ⟨[], []⟩

/-- size() (component_storage.h line 71): components_.size(). -/
def size (s : DenseComponentStorage T) : Nat := s.components.length

/-- HasComponent (component_storage.h lines 111-115): membership test on the
entity-to-index map. -/
def HasComponent (s : DenseComponentStorage T) (e : Entity) : Bool :=
  (s.component_index.lookup e).isSome

/-- AddComponent (component_storage.h lines 117-128).  Throws (modelled as
none) when the entity already has a component; the throw happens before any
mutation, so the failing call leaves the storage untouched.  Otherwise the map
records index components_.size() for the entity and a default-constructed T is
appended to the dense vector.  The position of the new map entry inside the
unordered map is unspecified in C++; the model prepends it. -/
def AddComponent [Inhabited T] (s : DenseComponentStorage T) (e : Entity) :
    Option (DenseComponentStorage T) :=
  if s.HasComponent e then none
  else some { component_index := (e, s.components.length) :: s.component_index,
              components := s.components ++ [default] }

/-- GetComponent (component_storage.h lines 142-152): throws (none) when the
entity has no component, otherwise returns components_[index] for the mapped
index. -/
def GetComponent [Inhabited T] (s : DenseComponentStorage T) (e : Entity) : Option T :=
  match s.component_index.lookup e with
  | none => none
  | some i => some (s.components.getD i default)

/-- operator[] (component_storage.h lines 183-193): raw positional access into
the dense vector. -/
def at' [Inhabited T] (s : DenseComponentStorage T) (i : ComponentIndex) : T :=
  s.components.getD i default

/-- std::swap(components_[i], components_[j]) on the model list (the swap in
RemoveComponent, component_storage.h line 167). -/
def listSwap [Inhabited α] (l : List α) (i j : Nat) : List α :=
  (l.set i (l.getD j default)).set j (l.getD i default)

/-- The relabelling loop of RemoveComponent (component_storage.h lines
169-176): walk the map in iteration order, set the first entry whose index
equals last_index to index, then break. -/
def remapLast (l : List (Entity × ComponentIndex)) (last_index index : Nat) :
    List (Entity × ComponentIndex) :=
  match l with
  | [] => []
  | q :: rest =>
      if q.2 = last_index then (q.1, index) :: rest
      else q :: remapLast rest last_index index

/-- component_index_.erase(entity) (component_storage.h line 179):
unordered_map erase by key removes the entry for that key (the first matching
entry in the modelled iteration order; keys of an unordered_map are unique). -/
def eraseKey (l : List (Entity × ComponentIndex)) (e : Entity) :
    List (Entity × ComponentIndex) :=
  match l with
  | [] => []
  | q :: rest => if q.1 = e then rest else q :: eraseKey rest e

/-- RemoveComponent (component_storage.h lines 154-181).  Throws (none) when
the entity has no component.  When more than one component is stored, the
target slot is swapped with the last occupied slot, the map entry of whichever
entity owned the last slot is rewritten to the freed index, the removed
entity's map entry is erased and the dense vector shrinks by one.  With at
most one component only the erase and the shrink happen. -/
def RemoveComponent [Inhabited T] (s : DenseComponentStorage T) (e : Entity) :
    Option (DenseComponentStorage T) :=
  if s.HasComponent e = false then none
  else if s.components.length > 1 then
    match s.component_index.lookup e with
    | none => none
    | some index =>
      let last_index := s.components.length - 1
      some { component_index := eraseKey (remapLast s.component_index last_index index) e,
             components := (listSwap s.components index last_index).dropLast }
  else
    some { component_index := eraseKey s.component_index e,
           components := s.components.dropLast }

/-- The dense-packing invariant of the storage (spec section 3): keys of the
entity-to-index map are pairwise distinct and the multiset of mapped indices
is exactly the interval from 0 to size-1, i.e. the map is a bijection from the
stored entities onto the positions of the dense vector. -/
def Wf (s : DenseComponentStorage T) : Prop :=
  (s.component_index.map Prod.fst).Nodup ∧
  (s.component_index.map Prod.snd).Perm (List.range s.components.length)

instance (s : DenseComponentStorage T) : Decidable s.Wf := by
  unfold Wf; infer_instance

end DenseComponentStorage

/-- A single successful mutation of one storage, for stating the dense-packing
invariant over arbitrary call sequences. -/
inductive StorageOp where
  | add (e : Entity)
  | remove (e : Entity)
deriving DecidableEq

/-- Apply one storage call; none when the source call would throw. -/
def applyOp [Inhabited T] (s : DenseComponentStorage T) :
    StorageOp → Option (DenseComponentStorage T)
  | .add e => s.AddComponent e
  | .remove e => s.RemoveComponent e

/-- Run a sequence of storage calls from a given storage; none as soon as one
call fails. -/
def runOpsFrom [Inhabited T] (s : DenseComponentStorage T) :
    List StorageOp → Option (DenseComponentStorage T)
  | [] => some s
  | op :: ops =>
    match applyOp s op with
    | none => none
    | some s2 => runOpsFrom s2 ops

/-- Run a sequence of storage calls from the empty storage. -/
def runOps [Inhabited T] (ops : List StorageOp) : Option (DenseComponentStorage T) :=
  runOpsFrom DenseComponentStorage.empty ops

/-! ## EntitySet and std::partition (src/yecs/entity_set.h)

EntitySet::Filter and EntitySet::FilterInPlace both run std::partition over the
stored entity vector and keep the first segment.  std::partition for the
bidirectional iterators of std::vector is the classic two-cursor algorithm
(used by libstdc++ and libc++): advance the front cursor over elements that
satisfy the predicate, retreat the back cursor over elements that do not, swap
and repeat until the cursors meet; the meeting point is returned.  The loops
are modelled with an explicit fuel argument that bounds the distance between
the two cursors; fuel never runs out for the in-range calls made below, which
the lemmas about these functions establish. -/

/-- The forward scan of std::partition: starting at first, skip over elements
satisfying p; stop at the first failing element or at last. -/
def skipSat (p : Entity → Bool) : Nat → List Entity → Nat → Nat → Nat
  | 0, _, _, last => last
  | fuel + 1, v, first, last =>
      if first < last then
        if p (v.getD first default) then skipSat p fuel v (first + 1) last else first
      else last

/-- The backward scan of std::partition: starting at l, move down over
elements not satisfying p; stop at the first satisfying element or at first. -/
def skipUnsat (p : Entity → Bool) : Nat → List Entity → Nat → Nat → Nat
  | 0, _, first, _ => first
  | fuel + 1, v, first, l =>
      if first < l then
        if p (v.getD l default) then l else skipUnsat p fuel v first (l - 1)
      else first

/-- The main loop of std::partition over positions in the interval from first
to last of v: returns the reordered vector and the partition point. -/
def partitionFuel (p : Entity → Bool) :
    Nat → List Entity → Nat → Nat → List Entity × Nat
  | 0, v, first, _ => (v, first)
  | fuel + 1, v, first, last =>
      if first < last then
        let f := skipSat p (last - first) v first last
        if f < last then
          let l2 := skipUnsat p (last - 1 - f) v f (last - 1)
          if f < l2 then
            partitionFuel p fuel (DenseComponentStorage.listSwap v f l2) (f + 1) l2
          else (v, f)
        else (v, f)
      else (v, skipSat p (last - first) v first last)

/-- std::partition(begin, end, p) over the whole vector: the reordered vector
together with the offset of the returned iterator. -/
def stdPartition (p : Entity → Bool) (v : List Entity) : List Entity × Nat :=
  partitionFuel p v.length v 0 v.length

/-- EntitySet (src/yecs/entity_set.h lines 35-69): a snapshot holding a vector
of entity ids. -/
structure EntitySet where
  entities : List Entity
deriving DecidableEq

/-- EntitySet::Filter, const overload (entity_set.h lines 87-92):
std::partition of the stored entities, then a new set is built from the range
from begin to the returned iterator, i.e. the first segment of the partitioned
vector. -/
def EntitySet.Filter (s : EntitySet) (p : Entity → Bool) : EntitySet :=
  let r := stdPartition p s.entities
  ⟨r.1.take r.2⟩

/-- EntitySet::FilterInPlace (entity_set.h lines 71-77): std::partition of the
stored entities followed by resize to the distance from begin to the returned
iterator; the surviving storage is the same first segment. -/
def EntitySet.FilterInPlace (s : EntitySet) (p : Entity → Bool) : EntitySet :=
  let r := stdPartition p s.entities
  ⟨r.1.take r.2⟩

/-! ## World (src/yecs/world.h, second document, and src/unnamed/part_002)

The World owns the entity liveness table (std::vector of bool), the component
storage map (std::unordered_map from std::type_index to unique_ptr of storage,
where a unique_ptr may be null only through the defect modelled in
World.AddComponent), the system registration map, and the taskflow: the task
nodes emplaced by RegisterSystem and the precedence edges added by Precede.
The storages of the different registered component types have different C++
element types; the model uses one arbitrary value type V for all of them. -/

structure World (V : Type) where
  entities : List Bool := []
  components : List (TypeId × Option (DenseComponentStorage V)) := []
  systems : List TypeId := []
  taskflowTasks : List TypeId := []
  taskflowEdges : List (TypeId × TypeId) := []
deriving DecidableEq

namespace World

variable {V : Type}

/-- A default-constructed World. -/
def init : World V := {}

/-- World::RegisterComponent (world.h lines 612-624): throws (none) when the
type is already registered, otherwise emplaces a fresh empty storage keyed by
the type. -/
def RegisterComponent (w : World V) (t : TypeId) : Option (World V) :=
  if (w.components.lookup t).isSome then none
  else some { w with components := w.components ++ [(t, some .empty)] }

/-- Overwrite the storage stored under key t (the in-place mutation of the
storage object reached through GetComponentStorage). -/
def setStorage (w : World V) (t : TypeId) (s : DenseComponentStorage V) : World V :=
  { w with components := w.components.map (fun q => if q.1 = t then (t, some s) else q) }

/-- Possible outcomes of World::AddComponent. -/
inductive AddOutcome (V : Type) where
  | ok (w : World V)
  | thrown (w : World V)
  | nullDeref (w : World V)
deriving DecidableEq

/-- World::AddComponent (world.h lines 626-632) through GetComponentStorage
(world.h lines 602-610).  GetComponentStorage only asserts that the type is
registered and then uses unordered_map operator[], which for an unregistered
type default-inserts a null unique_ptr; the subsequent static_cast and
dereference of that null pointer is undefined behaviour (nullDeref), reached
after the map has been modified.  For a registered type the storage's
AddComponent runs: a DuplicateComponent throw (thrown) leaves the world
unchanged, success stores the updated storage. -/
def AddComponent [Inhabited V] (w : World V) (t : TypeId) (e : Entity) : AddOutcome V :=
  match w.components.lookup t with
  | none => .nullDeref { w with components := w.components ++ [(t, none)] }
  | some none => .nullDeref w
  | some (some s) =>
      match s.AddComponent e with
      | none => .thrown w
      | some s2 => .ok (w.setStorage t s2)

/-- A system removing a component through the storage reference obtained from
ComponentAccess::Write (world.h lines 691-695): the storage's RemoveComponent
runs on the stored storage; none when the type is unregistered (the same
assert-and-null path as AddComponent) or the storage throws MissingComponent. -/
def storageRemoveComponent [Inhabited V] (w : World V) (t : TypeId) (e : Entity) :
    Option (World V) :=
  match w.components.lookup t with
  | some (some s) => (s.RemoveComponent e).map (w.setStorage t)
  | _ => none

/-- The free-slot scan of World::CreateEntity (src/unnamed/part_002 lines
24-31): id starts at kInvalidEntity and is overwritten by every index holding
false, so the scan yields the last free slot, or kInvalidEntity when every
slot is true. -/
def scanFree (entities : List Bool) : Nat :=
  (List.range entities.length).foldl
    (fun id i => if entities.getD i false = false then i else id) kInvalidEntity

/-- World::CreateEntity (src/unnamed/part_002 lines 18-48): scan for a free
slot; when none is found grow the table by kEntitySizeIncrement slots all set
to false and take the first new slot; finally mark the chosen id live. -/
def CreateEntity (w : World V) : Entity × World V :=
  let id := scanFree w.entities
  if id = kInvalidEntity then
    let old_size := w.entities.length
    let grown := w.entities ++ List.replicate kEntitySizeIncrement false
    (old_size, { w with entities := grown.set old_size true })
  else
    (id, { w with entities := w.entities.set id true })

/-- World::DestroyEntity (src/unnamed/part_002 lines 50-64): for every entry
of the component map, remove the entity's component if that storage holds one
(storages not holding it are skipped silently); then mark the entity id dead.
A null storage slot, possible only after the unregistered-add defect, is left
untouched here; the source would dereference a null pointer on it. -/
def DestroyEntity [Inhabited V] (w : World V) (e : Entity) : World V :=
  { w with
    components := w.components.map (fun q =>
      match q.2 with
      | none => q
      | some s =>
          (q.1, some (if s.HasComponent e then (s.RemoveComponent e).getD s else s)))
    entities := w.entities.set e false }

/-- World::Reset (src/unnamed/part_002 lines 11-16): clears the entity table,
the component map and the system map.  The taskflow (taskflow_ with its
emplaced task nodes and precedence edges) is not cleared. -/
def Reset (w : World V) : World V :=
  { w with entities := [], components := [], systems := [] }

/-- World::RegisterSystem (world.h lines 659-680): throws (none) when a system
of this type is already registered, otherwise records the system keyed by its
type and emplaces one task node for it into the taskflow. -/
def RegisterSystem (w : World V) (t : TypeId) : Option (World V) :=
  if w.systems.contains t then none
  else some { w with systems := w.systems ++ [t],
                     taskflowTasks := w.taskflowTasks ++ [t] }

/-- World::Precede (world.h lines 718-733): throws (none) when either system
type was never registered, otherwise adds the precedence edge between the two
systems' task nodes. -/
def Precede (w : World V) (t0 t1 : TypeId) : Option (World V) :=
  if w.systems.contains t0 && w.systems.contains t1 then
    some { w with taskflowEdges := w.taskflowEdges ++ [(t0, t1)] }
  else none

end World

/-- One World-level operation, for stating reachable-state invariants: the
operations named by the claims (CreateEntity, DestroyEntity, AddComponent and
a storage-level RemoveComponent reached through ComponentAccess) plus the
RegisterComponent needed to have storages at all. -/
inductive WorldOp where
  | registerComponent (t : TypeId)
  | create
  | destroy (e : Entity)
  | add (t : TypeId) (e : Entity)
  | remove (t : TypeId) (e : Entity)
deriving DecidableEq

/-- One step of World-level execution; none when the source call would throw
or run into undefined behaviour (DestroyEntity is guarded by the table bound
because entities_[entity] has no bounds check). -/
def World.stepOp [Inhabited V] (w : World V) : WorldOp → Option (World V)
  | .registerComponent t => w.RegisterComponent t
  | .create => some (w.CreateEntity).2
  | .destroy e => if e < w.entities.length then some (w.DestroyEntity e) else none
  | .add t e =>
      match w.AddComponent t e with
      | .ok w2 => some w2
      | _ => none
  | .remove t e => w.storageRemoveComponent t e

/-- Run a sequence of World operations from a freshly constructed World. -/
def runWorldOpsFrom [Inhabited V] (w : World V) : List WorldOp → Option (World V)
  | [] => some w
  | op :: ops =>
    match w.stepOp op with
    | none => none
    | some w2 => runWorldOpsFrom w2 ops

/-- Run a sequence of World operations from a freshly constructed World. -/
def runWorldOps [Inhabited V] (ops : List WorldOp) : Option (World V) :=
  runWorldOpsFrom World.init ops

/-- Worlds reachable by successful operations in which AddComponent is only
ever applied to an entity that is live at the time of the call. -/
inductive ReachLive [Inhabited V] : World V → Prop
  | init : ReachLive World.init
  | step (w w2 : World V) (op : WorldOp) : ReachLive w → w.stepOp op = some w2 →
      (∀ t e, op = .add t e → w.entities.getD e false = true) → ReachLive w2

/-- The cross-storage invariant of spec section 3: every registered storage is
well-formed and every entity appearing as a key in some storage is live — so
an id marked dead is never a key in any storage. -/
def World.StorageInv (w : World V) : Prop :=
  ∀ q ∈ w.components, ∀ s : DenseComponentStorage V, q.2 = some s →
    s.Wf ∧ ∀ e, s.HasComponent e = true → w.entities.getD e false = true

/-! ## Scheduler (src/unnamed/part_002 lines 5-9 and world.h lines 659-733)

World::Run hands the taskflow to a tf::Executor and blocks until it drains.
The cpp-taskflow library itself is a third-party submodule whose sources are
not part of this repository, so its execution contract is modelled from the
spec (sections 4.4 and 5): every emplaced task runs exactly once per
execution, a task may start only once all tasks with a precedence edge into it
have completed, and independent tasks may interleave arbitrarily.  An
execution is abstracted as the sequence of task completions; mutations made by
a completed task are visible to every later task (spec ordering guarantee 1),
which the sequential sequence representation realises by construction. -/

/-- The task graph held by taskflow_: one node per RegisterSystem call, one
edge per Precede call. -/
structure TaskGraph where
  tasks : List TypeId
  edges : List (TypeId × TypeId)

/-- The task graph a World's Run call hands to the executor. -/
def World.taskGraph (w : World V) : TaskGraph :=
  ⟨w.taskflowTasks, w.taskflowEdges⟩

/-- Modelled from the spec: a task t may be dispatched once the tasks in done
have completed if it is a node of the graph, has not yet run, and every
predecessor along an edge has completed. -/
def TaskGraph.canRun (g : TaskGraph) (done : List TypeId) (t : TypeId) : Prop :=
  t ∈ g.tasks ∧ t ∉ done ∧ ∀ q ∈ g.edges, q.2 = t → q.1 ∈ done

/-- Modelled from the spec: the sequences of task completions the executor can
produce while running the graph. -/
inductive TaskGraph.ExecTrace (g : TaskGraph) : List TypeId → Prop
  | nil : ExecTrace g []
  | snoc (done : List TypeId) (t : TypeId) :
      ExecTrace g done → g.canRun done t → ExecTrace g (done ++ [t])

/-- Modelled from the spec: a completed run of the executor (World::Run blocks
in wait_for_all until no task remains dispatchable). -/
def TaskGraph.MaximalExec (g : TaskGraph) (σ : List TypeId) : Prop :=
  g.ExecTrace σ ∧ ∀ t, ¬ g.canRun σ t

/-- One scheduler-configuration call. -/
inductive SchedOp where
  | reg (t : TypeId)
  | prec (t0 t1 : TypeId)
deriving DecidableEq

/-- Apply a sequence of RegisterSystem / Precede calls to a fresh World. -/
def buildSchedFrom (w : World Unit) : List SchedOp → Option (World Unit)
  | [] => some w
  | .reg t :: ops =>
    match w.RegisterSystem t with
    | none => none
    | some w2 => buildSchedFrom w2 ops
  | .prec t0 t1 :: ops =>
    match w.Precede t0 t1 with
    | none => none
    | some w2 => buildSchedFrom w2 ops

/-- Build a scheduler configuration from a fresh World. -/
def buildSched (ops : List SchedOp) : Option (World Unit) :=
  buildSchedFrom World.init ops

/-! ## List-level helper lemmas -/

section ListHelpers

variable {α : Type _} {β : Type _}

theorem getD_set_self {d : α} (l : List α) (i : Nat) (a : α) (h : i < l.length) :
    (l.set i a).getD i d = a := by
  simp [List.getD_eq_getElem?_getD, List.getElem?_set, h]

theorem getD_set_ne {d : α} (l : List α) (i j : Nat) (a : α) (h : j ≠ i) :
    (l.set i a).getD j d = l.getD j d := by
  simp [List.getD_eq_getElem?_getD, List.getElem?_set, Ne.symm h]

theorem set_getD_self {d : α} (l : List α) (i : Nat) :
    l.set i (l.getD i d) = l := by
  induction l generalizing i with
  | nil => rfl
  | cons a t ih =>
      cases i with
      | zero => rfl
      | succ k => simpa [List.set, List.getD_cons_succ] using ih k

theorem getD_append_left {d : α} (l m : List α) (i : Nat) (h : i < l.length) :
    (l ++ m).getD i d = l.getD i d := by
  simp [List.getD_eq_getElem?_getD, List.getElem?_append, h]

theorem getD_append_right {d : α} (l m : List α) (i : Nat) (h : l.length ≤ i) :
    (l ++ m).getD i d = m.getD (i - l.length) d := by
  simp [List.getD_eq_getElem?_getD, List.getElem?_append_right, h]

theorem getD_of_len_le {d : α} (l : List α) (i : Nat) (h : l.length ≤ i) :
    l.getD i d = d := by
  simp [List.getD_eq_getElem?_getD, List.getElem?_eq_none, h]

theorem getD_dropLast {d : α} (l : List α) (i : Nat) (h : i < l.length - 1) :
    l.dropLast.getD i d = l.getD i d := by
  rw [List.dropLast_eq_take]
  simp only [List.getD_eq_getElem?_getD, List.getElem?_take, h, if_pos]

theorem count_cons_eq (a b : Nat) (l : List Nat) :
    List.count a (b :: l) = List.count a l + (if a = b then 1 else 0) := by
  by_cases h : a = b
  · subst h; simp [List.count_cons]
  · simp [List.count_cons, h, Ne.symm h]

theorem count_range_eq (a n : Nat) :
    List.count a (List.range n) = if a < n then 1 else 0 := by
  induction n with
  | zero => simp
  | succ k ih =>
      rw [List.range_succ, List.count_append, ih]
      by_cases hak : a = k
      · subst hak; simp
      · have hc : List.count a [k] = 0 := by
          simp [List.count_singleton', Ne.symm hak]
        rw [hc]
        by_cases h2 : a < k
        · simp [h2, Nat.lt_succ_of_lt h2]
        · have h3 : ¬ a < k + 1 := by omega
          simp [h2, h3]

theorem count_eq_card_filter_range (l : List Nat) (a : Nat) :
    a ∈ l → l.Perm (List.range l.length) → a < l.length := by
  intro ha hp
  have := hp.mem_iff.mp ha
  simpa using this

end ListHelpers

/-! ## Association-list (unordered_map) helper lemmas -/

section LookupHelpers

variable {γ : Type _}

theorem lookup_cons_self (e : Nat) (v : γ) (rest : List (Nat × γ)) :
    ((e, v) :: rest).lookup e = some v := by
  simp [List.lookup]

theorem lookup_cons_ne (e k : Nat) (v : γ) (rest : List (Nat × γ)) (h : e ≠ k) :
    ((k, v) :: rest).lookup e = rest.lookup e := by
  simp [List.lookup, beq_eq_false_iff_ne.mpr h]

theorem lookup_eq_some_mem {l : List (Nat × γ)} {e : Nat} {v : γ}
    (h : l.lookup e = some v) : (e, v) ∈ l := by
  induction l with
  | nil => simp [List.lookup] at h
  | cons q rest ih =>
      obtain ⟨k, w⟩ := q
      by_cases hq : e = k
      · subst hq
        rw [lookup_cons_self] at h
        cases h
        simp
      · rw [lookup_cons_ne _ _ _ _ hq] at h
        exact List.mem_cons_of_mem _ (ih h)

theorem lookup_isSome_iff_mem_keys {l : List (Nat × γ)} {e : Nat} :
    (l.lookup e).isSome = true ↔ e ∈ l.map Prod.fst := by
  induction l with
  | nil => simp [List.lookup]
  | cons q rest ih =>
      obtain ⟨k, w⟩ := q
      by_cases hq : e = k
      · subst hq
        rw [lookup_cons_self]
        simp
      · rw [lookup_cons_ne _ _ _ _ hq]
        simp [hq, ih]

theorem lookup_eq_none_of_not_mem_keys {l : List (Nat × γ)} {e : Nat}
    (h : e ∉ l.map Prod.fst) : l.lookup e = none := by
  cases hl : l.lookup e with
  | none => rfl
  | some v =>
      exact absurd (lookup_isSome_iff_mem_keys.mp (by simp [hl])) h

theorem lookup_of_mem_of_nodup {l : List (Nat × γ)} {e : Nat} {v : γ}
    (hnd : (l.map Prod.fst).Nodup) (h : (e, v) ∈ l) : l.lookup e = some v := by
  induction l with
  | nil => simp at h
  | cons q rest ih =>
      obtain ⟨k, w⟩ := q
      simp only [List.map_cons, List.nodup_cons] at hnd
      rcases List.mem_cons.mp h with h1 | h2
      · cases h1
        exact lookup_cons_self _ _ _
      · have hne : e ≠ k := by
          intro he
          subst he
          exact hnd.1 (List.mem_map.mpr ⟨(e, v), h2, rfl⟩)
        rw [lookup_cons_ne _ _ _ _ hne]
        exact ih hnd.2 h2

theorem key_eq_of_mem_of_snd_nodup {l : List (Nat × γ)} {a b : Nat} {c : γ}
    (hnd : (l.map Prod.snd).Nodup) (h1 : (a, c) ∈ l) (h2 : (b, c) ∈ l) : a = b := by
  induction l with
  | nil => simp at h1
  | cons q rest ih =>
      obtain ⟨k, w⟩ := q
      simp only [List.map_cons, List.nodup_cons] at hnd
      rcases List.mem_cons.mp h1 with g1 | g1 <;> rcases List.mem_cons.mp h2 with g2 | g2
      · cases g1; cases g2; rfl
      · cases g1
        exact absurd (List.mem_map.mpr ⟨(b, c), g2, rfl⟩) hnd.1
      · cases g2
        exact absurd (List.mem_map.mpr ⟨(a, c), g1, rfl⟩) hnd.1
      · exact ih hnd.2 g1 g2

end LookupHelpers

/-! ## Lemmas about the RemoveComponent ingredients -/

namespace DenseComponentStorage

variable {T : Type}

theorem remapLast_map_fst (l : List (Entity × ComponentIndex)) (a b : Nat) :
    (remapLast l a b).map Prod.fst = l.map Prod.fst := by
  induction l with
  | nil => rfl
  | cons q rest ih =>
      by_cases hq : q.2 = a <;> simp [remapLast, hq, ih]

theorem remapLast_self (l : List (Entity × ComponentIndex)) (a : Nat) :
    remapLast l a a = l := by
  induction l with
  | nil => rfl
  | cons q rest ih =>
      simp only [remapLast]
      by_cases hq : q.2 = a
      · rw [if_pos hq, ← hq]
      · rw [if_neg hq, ih]

theorem lookup_remapLast_ne {l : List (Entity × ComponentIndex)} {e : Entity}
    {i a b : Nat} (h : l.lookup e = some i) (hia : i ≠ a) :
    (remapLast l a b).lookup e = some i := by
  induction l with
  | nil => simp [List.lookup] at h
  | cons q rest ih =>
      obtain ⟨k, w⟩ := q
      simp only [remapLast]
      by_cases hek : e = k
      · subst hek
        rw [lookup_cons_self] at h
        injection h with h2
        subst h2
        rw [if_neg (by simpa using hia)]
        exact lookup_cons_self _ _ _
      · rw [lookup_cons_ne _ _ _ _ hek] at h
        by_cases hw : (k, w).2 = a
        · rw [if_pos hw]
          rw [lookup_cons_ne _ _ _ _ hek]
          exact h
        · rw [if_neg hw]
          rw [lookup_cons_ne _ _ _ _ hek]
          exact ih h

theorem lookup_remapLast_self {l : List (Entity × ComponentIndex)} {e1 : Entity}
    {a b : Nat} (hk : (l.map Prod.fst).Nodup) (hv : (l.map Prod.snd).Nodup)
    (hmem : (e1, a) ∈ l) : (remapLast l a b).lookup e1 = some b := by
  induction l with
  | nil => simp at hmem
  | cons q rest ih =>
      obtain ⟨k, w⟩ := q
      simp only [List.map_cons, List.nodup_cons] at hk hv
      simp only [remapLast]
      by_cases hw : (k, w).2 = a
      · have hk1 : k = e1 := by
          rcases List.mem_cons.mp hmem with h1 | h1
          · injection h1 with h1a h1b
            exact h1a.symm
          · exfalso
            apply hv.1
            have hmm : a ∈ rest.map Prod.snd := List.mem_map.mpr ⟨(e1, a), h1, rfl⟩
            rw [← hw] at hmm
            exact hmm
        subst hk1
        rw [if_pos hw]
        exact lookup_cons_self _ _ _
      · have hmem2 : (e1, a) ∈ rest := by
          rcases List.mem_cons.mp hmem with h1 | h1
          · injection h1 with h1a h1b
            exact absurd (by simpa using h1b.symm) hw
          · exact h1
        have hke : e1 ≠ k := by
          intro he
          subst he
          exact hk.1 (List.mem_map.mpr ⟨(e1, a), hmem2, rfl⟩)
        rw [if_neg hw]
        rw [lookup_cons_ne _ _ _ _ hke]
        exact ih hk.2 hv.2 hmem2

theorem count_remapLast {l : List (Entity × ComponentIndex)} {a : Nat} (b : Nat)
    (hmem : a ∈ l.map Prod.snd) (x : Nat) :
    List.count x ((remapLast l a b).map Prod.snd) + (if x = a then 1 else 0) =
      List.count x (l.map Prod.snd) + (if x = b then 1 else 0) := by
  induction l with
  | nil => simp at hmem
  | cons q rest ih =>
      obtain ⟨k, w⟩ := q
      rw [List.map_cons] at hmem
      simp only [remapLast]
      by_cases hw : (k, w).2 = a
      · rw [if_pos hw]
        simp only at hw
        subst hw
        simp only [List.map_cons, count_cons_eq]
        omega
      · simp only at hw
        have hmem2 : a ∈ rest.map Prod.snd := by
          rcases List.mem_cons.mp hmem with h1 | h1
          · exact absurd h1.symm hw
          · exact h1
        have hih := ih hmem2
        rw [if_neg hw]
        simp only [List.map_cons, count_cons_eq]
        omega

theorem eraseKey_map_fst_sublist (l : List (Entity × ComponentIndex)) (e : Entity) :
    ((eraseKey l e).map Prod.fst).Sublist (l.map Prod.fst) := by
  induction l with
  | nil => simp [eraseKey]
  | cons q rest ih =>
      simp only [eraseKey]
      by_cases hq : q.1 = e
      · rw [if_pos hq, List.map_cons]
        exact List.sublist_cons_self _ _
      · rw [if_neg hq, List.map_cons, List.map_cons]
        exact ih.cons₂ _

theorem count_eraseKey {l : List (Entity × ComponentIndex)} {e : Entity} {w : Nat}
    (h : l.lookup e = some w) (x : Nat) :
    List.count x ((eraseKey l e).map Prod.snd) + (if x = w then 1 else 0) =
      List.count x (l.map Prod.snd) := by
  induction l with
  | nil => simp [List.lookup] at h
  | cons q rest ih =>
      obtain ⟨k, v⟩ := q
      simp only [eraseKey]
      by_cases hek : e = k
      · subst hek
        rw [lookup_cons_self] at h
        injection h with h2
        subst h2
        rw [if_pos rfl]
        simp only [List.map_cons, count_cons_eq]
      · rw [lookup_cons_ne _ _ _ _ hek] at h
        have hke : ¬ (k, v).1 = e := fun hh => hek (by simpa using hh.symm)
        rw [if_neg hke]
        simp only [List.map_cons, count_cons_eq]
        have hih := ih h
        omega

theorem lookup_eraseKey_ne {l : List (Entity × ComponentIndex)} {e e2 : Entity}
    (h : e2 ≠ e) : (eraseKey l e).lookup e2 = l.lookup e2 := by
  induction l with
  | nil => rfl
  | cons q rest ih =>
      obtain ⟨k, v⟩ := q
      simp only [eraseKey]
      by_cases hk : (k, v).1 = e
      · rw [if_pos hk]
        simp only at hk
        subst hk
        rw [lookup_cons_ne _ _ _ _ h]
      · rw [if_neg hk]
        by_cases he2 : e2 = k
        · subst he2
          rw [lookup_cons_self, lookup_cons_self]
        · rw [lookup_cons_ne _ _ _ _ he2, lookup_cons_ne _ _ _ _ he2]
          exact ih

theorem lookup_eraseKey_self {l : List (Entity × ComponentIndex)} {e : Entity}
    (hk : (l.map Prod.fst).Nodup) : (eraseKey l e).lookup e = none := by
  induction l with
  | nil => rfl
  | cons q rest ih =>
      obtain ⟨k, v⟩ := q
      simp only [List.map_cons, List.nodup_cons] at hk
      simp only [eraseKey]
      by_cases hke : (k, v).1 = e
      · rw [if_pos hke]
        simp only at hke
        subst hke
        exact lookup_eq_none_of_not_mem_keys hk.1
      · rw [if_neg hke]
        simp only at hke
        rw [lookup_cons_ne _ _ _ _ (fun hh => hke hh.symm)]
        exact ih hk.2

theorem listSwap_length [Inhabited α] (l : List α) (i j : Nat) :
    (listSwap l i j).length = l.length := by
  simp [listSwap, List.length_set]

theorem getD_cons_swap_perm [Inhabited α] :
    ∀ (t : List α) (j : Nat) (a : α), j < t.length →
      (t.getD j default :: t.set j a).Perm (a :: t) := by
  intro t
  induction t with
  | nil => intro j a h; simp at h
  | cons b t2 ih =>
      intro j a h
      cases j with
      | zero =>
          simpa using List.Perm.swap a b t2
      | succ k =>
          have hk : k < t2.length := by simpa using h
          have h1 : (t2.getD k default :: b :: t2.set k a).Perm
              (b :: t2.getD k default :: t2.set k a) :=
            List.Perm.swap b (t2.getD k default) (t2.set k a)
          have h2 : (b :: t2.getD k default :: t2.set k a).Perm (b :: a :: t2) :=
            (ih k a hk).cons b
          have h3 : (b :: a :: t2).Perm (a :: b :: t2) := List.Perm.swap a b t2
          have := (h1.trans h2).trans h3
          simpa using this

theorem listSwap_comm [Inhabited α] (l : List α) (i j : Nat) (h : i ≠ j) :
    listSwap l i j = listSwap l j i := by
  unfold listSwap
  rw [List.set_comm _ _ _ h]

theorem listSwap_perm [Inhabited α] :
    ∀ (l : List α) (i j : Nat), i < l.length → j < l.length →
      (listSwap l i j).Perm l := by
  intro l
  induction l with
  | nil => intro i j h; simp at h
  | cons a t ih =>
      intro i j hi hj
      cases i with
      | zero =>
          cases j with
          | zero => simp [listSwap, set_getD_self]
          | succ k =>
              have hk : k < t.length := by simpa using hj
              have : listSwap (a :: t) 0 (k + 1) = t.getD k default :: t.set k a := by
                simp [listSwap, List.getD_cons_succ, List.getD_cons_zero]
              rw [this]
              exact getD_cons_swap_perm t k a hk
      | succ m =>
          cases j with
          | zero =>
              have hm : m < t.length := by simpa using hi
              rw [listSwap_comm _ _ _ (by omega)]
              have : listSwap (a :: t) 0 (m + 1) = t.getD m default :: t.set m a := by
                simp [listSwap, List.getD_cons_succ, List.getD_cons_zero]
              rw [this]
              exact getD_cons_swap_perm t m a hm
          | succ k =>
              have hm : m < t.length := by simpa using hi
              have hk : k < t.length := by simpa using hj
              have : listSwap (a :: t) (m + 1) (k + 1) = a :: listSwap t m k := by
                simp [listSwap, List.getD_cons_succ]
              rw [this]
              exact (ih m k hm hk).cons a

theorem getD_listSwap_right [Inhabited α] (l : List α) (i j : Nat) (hj : j < l.length) :
    (listSwap l i j).getD j default = l.getD i default := by
  unfold listSwap
  exact getD_set_self _ _ _ (by simpa using hj)

theorem getD_listSwap_left [Inhabited α] (l : List α) (i j : Nat) (hij : i ≠ j)
    (hi : i < l.length) : (listSwap l i j).getD i default = l.getD j default := by
  unfold listSwap
  rw [getD_set_ne _ _ _ _ hij]
  exact getD_set_self _ _ _ hi

theorem getD_listSwap_other [Inhabited α] (l : List α) (i j k : Nat) (hki : k ≠ i)
    (hkj : k ≠ j) : (listSwap l i j).getD k default = l.getD k default := by
  unfold listSwap
  rw [getD_set_ne _ _ _ _ hkj, getD_set_ne _ _ _ _ hki]

/-! ## Contracts of the storage operations -/

theorem hasComponent_false_iff (s : DenseComponentStorage T) (e : Entity) :
    s.HasComponent e = false ↔ s.component_index.lookup e = none := by
  unfold HasComponent
  cases s.component_index.lookup e <;> simp

theorem empty_wf : (empty : DenseComponentStorage T).Wf := by
  constructor <;> simp [empty]

theorem addComponent_eq [Inhabited T] {s : DenseComponentStorage T} {e : Entity}
    (h : s.HasComponent e = false) :
    s.AddComponent e =
      some ⟨(e, s.components.length) :: s.component_index, s.components ++ [default]⟩ := by
  unfold AddComponent
  rw [if_neg (by simp [h])]

theorem addComponent_wf [Inhabited T] {s s2 : DenseComponentStorage T} {e : Entity}
    (hwf : s.Wf) (h : s.AddComponent e = some s2) : s2.Wf := by
  obtain ⟨hk, hperm⟩ := hwf
  unfold AddComponent at h
  by_cases hhas : s.HasComponent e = true
  · rw [if_pos hhas] at h; exact absurd h (by simp)
  · rw [if_neg hhas] at h
    injection h with h
    subst h
    constructor
    · simp only [List.map_cons]
      refine List.nodup_cons.mpr ⟨?_, hk⟩
      intro hmem
      have : (s.component_index.lookup e).isSome = true :=
        lookup_isSome_iff_mem_keys.mpr hmem
      exact hhas (by simpa [HasComponent] using this)
    · simp only [List.map_cons, List.length_append, List.length_singleton]
      have h1 : (s.components.length :: s.component_index.map Prod.snd).Perm
          (s.components.length :: List.range s.components.length) := hperm.cons _
      have h2 : (List.range s.components.length ++ [s.components.length]).Perm
          (s.components.length :: List.range s.components.length) :=
        List.perm_append_singleton _ _
      have h3 : List.range (s.components.length + 1) =
          List.range s.components.length ++ [s.components.length] := by
        rw [← Nat.succ_eq_add_one, List.range_succ]
      rw [h3]
      exact h1.trans h2.symm

theorem addComponent_has_iff [Inhabited T] {s s2 : DenseComponentStorage T} {e : Entity}
    (h : s.AddComponent e = some s2) (x : Entity) :
    s2.HasComponent x = true ↔ (x = e ∨ s.HasComponent x = true) := by
  unfold AddComponent at h
  by_cases hhas : s.HasComponent e = true
  · rw [if_pos hhas] at h; exact absurd h (by simp)
  · rw [if_neg hhas] at h
    injection h with h
    subst h
    unfold HasComponent
    by_cases hxe : x = e
    · subst hxe
      rw [lookup_cons_self]
      simp
    · rw [lookup_cons_ne _ _ _ _ hxe]
      simp [hxe, HasComponent]

theorem removeComponent_isSome_of_has [Inhabited T] {s : DenseComponentStorage T}
    {e : Entity} (h : s.HasComponent e = true) : (s.RemoveComponent e).isSome = true := by
  unfold RemoveComponent
  rw [if_neg (by simp [h])]
  obtain ⟨i, hl⟩ : ∃ i, s.component_index.lookup e = some i := by
    cases hl : s.component_index.lookup e
    · simp [HasComponent, hl] at h
    · exact ⟨_, rfl⟩
  by_cases hn : s.components.length > 1
  · rw [if_pos hn, hl]; simp
  · rw [if_neg hn]; simp

theorem removeComponent_spec [Inhabited T] {s s2 : DenseComponentStorage T} {e : Entity}
    (hwf : s.Wf) (h : s.RemoveComponent e = some s2) :
    s2.Wf ∧ s2.size = s.size - 1 ∧ s2.HasComponent e = false ∧
    (∀ x, x ≠ e → s2.HasComponent x = s.HasComponent x) ∧
    (∀ x, x ≠ e → s2.GetComponent x = s.GetComponent x) := by
  obtain ⟨hk, hperm⟩ := hwf
  unfold RemoveComponent at h
  by_cases hhas : s.HasComponent e = true
  swap
  · rw [if_pos (by simpa using hhas)] at h
    exact absurd h (by simp)
  rw [if_neg (by simp [hhas])] at h
  obtain ⟨idx, hlook⟩ : ∃ i, s.component_index.lookup e = some i := by
    cases hl : s.component_index.lookup e
    · simp [HasComponent, hl] at hhas
    · exact ⟨_, rfl⟩
  have hmem_e : (e, idx) ∈ s.component_index := lookup_eq_some_mem hlook
  have hidx_mem : idx ∈ s.component_index.map Prod.snd :=
    List.mem_map.mpr ⟨(e, idx), hmem_e, rfl⟩
  have hidx_lt : idx < s.components.length := by
    have := hperm.mem_iff.mp hidx_mem
    simpa using this
  have hvnodup : (s.component_index.map Prod.snd).Nodup :=
    hperm.nodup_iff.mpr (List.nodup_range _)
  by_cases hn : s.components.length > 1
  swap
  · -- the single-component branch: the storage becomes empty
    rw [if_neg hn] at h
    injection h with h
    have hpos : 0 < s.components.length := Nat.lt_of_le_of_lt (Nat.zero_le idx) hidx_lt
    have hn1 : s.components.length = 1 := Nat.le_antisymm (Nat.not_lt.mp hn) hpos
    have hvals : s.component_index.map Prod.snd = [0] := by
      have h5 := hperm
      rw [hn1, show List.range 1 = [0] from rfl] at h5
      exact List.perm_singleton.mp h5
    have hlen1 : s.component_index.length = 1 := by
      have := congrArg List.length hvals
      simpa using this
    obtain ⟨q, hq⟩ := List.length_eq_one.mp hlen1
    have hqe : q = (e, idx) := by
      have h6 := hmem_e
      rw [hq] at h6
      exact (List.mem_singleton.mp h6).symm
    obtain ⟨c, hc⟩ := List.length_eq_one.mp hn1
    have hs2 : s2 = ⟨[], []⟩ := by
      rw [← h, hq, hqe, hc]
      simp [eraseKey]
    subst hs2
    refine ⟨⟨by simp, by simp⟩, by simp [size, hn1], by simp [HasComponent, List.lookup], ?_, ?_⟩
    · intro x hx
      have h7 : s.HasComponent x = false := by
        rw [hasComponent_false_iff, hq, hqe, lookup_cons_ne _ _ _ _ hx]
        rfl
      rw [h7]
      simp [HasComponent, List.lookup]
    · intro x hx
      have hx2 : s.component_index.lookup x = none := by
        rw [hq, hqe, lookup_cons_ne _ _ _ _ hx]
        rfl
      simp [GetComponent, hx2, List.lookup]
  · -- the swap-and-pop branch
    rw [if_pos hn, hlook] at h
    injection h with h
    have hlast_lt : s.components.length - 1 < s.components.length := by omega
    have hlast_mem : s.components.length - 1 ∈ s.component_index.map Prod.snd :=
      hperm.mem_iff.mpr (List.mem_range.mpr hlast_lt)
    have hkeys_remap : ((remapLast s.component_index (s.components.length - 1) idx).map
        Prod.fst).Nodup := by
      rw [remapLast_map_fst]
      exact hk
    have hlook_remap : (remapLast s.component_index (s.components.length - 1) idx).lookup e
        = some idx := by
      by_cases hidx : idx = s.components.length - 1
      · rw [← hidx, remapLast_self]
        exact hlook
      · exact lookup_remapLast_ne hlook hidx
    have hlen2 : s2.components.length = s.components.length - 1 := by
      rw [← h]
      simp [listSwap_length]
    have hwf2 : s2.Wf := by
      constructor
      · rw [← h]
        exact (hkeys_remap).sublist (eraseKey_map_fst_sublist _ _)
      · rw [List.perm_iff_count]
        intro x
        have e1 := count_eraseKey hlook_remap x
        have e2 := count_remapLast idx hlast_mem x
        have e3 := (List.perm_iff_count.mp hperm x).trans (count_range_eq x _)
        rw [count_range_eq, hlen2]
        have hv2 : s2.component_index =
            eraseKey (remapLast s.component_index (s.components.length - 1) idx) e := by
          rw [← h]
        rw [hv2]
        split_ifs at e1 e2 e3 ⊢ <;> omega
    refine ⟨hwf2, by simpa [size] using hlen2, ?_, ?_, ?_⟩
    · rw [hasComponent_false_iff, ← h]
      exact lookup_eraseKey_self hkeys_remap
    · intro x hx
      have hl2 : s2.component_index.lookup x =
          (remapLast s.component_index (s.components.length - 1) idx).lookup x := by
        rw [← h]
        exact lookup_eraseKey_ne hx
      unfold HasComponent
      rw [hl2]
      by_cases hm : x ∈ s.component_index.map Prod.fst
      · rw [lookup_isSome_iff_mem_keys.mpr (by rwa [remapLast_map_fst]),
          lookup_isSome_iff_mem_keys.mpr hm]
      · rw [lookup_eq_none_of_not_mem_keys (by rwa [remapLast_map_fst]),
          lookup_eq_none_of_not_mem_keys hm]
    · intro x hx
      have hl2 : s2.component_index.lookup x =
          (remapLast s.component_index (s.components.length - 1) idx).lookup x := by
        rw [← h]
        exact lookup_eraseKey_ne hx
      cases hlx : s.component_index.lookup x with
      | none =>
          have hnm : x ∉ s.component_index.map Prod.fst := by
            intro hm
            have := lookup_isSome_iff_mem_keys.mpr hm
            rw [hlx] at this
            simp at this
          have : s2.component_index.lookup x = none := by
            rw [hl2]
            exact lookup_eq_none_of_not_mem_keys (by rwa [remapLast_map_fst])
          simp [GetComponent, this, hlx]
      | some ix =>
          have hmem_x : (x, ix) ∈ s.component_index := lookup_eq_some_mem hlx
          have hixne : ix ≠ idx := by
            intro hh
            exact hx (key_eq_of_mem_of_snd_nodup hvnodup (hh ▸ hmem_x) hmem_e)
          have hix_lt : ix < s.components.length := by
            have : ix ∈ s.component_index.map Prod.snd :=
              List.mem_map.mpr ⟨(x, ix), hmem_x, rfl⟩
            have := hperm.mem_iff.mp this
            simpa using this
          have hcomps2 : s2.components =
              (listSwap s.components idx (s.components.length - 1)).dropLast := by
            rw [← h]
          by_cases hixlast : ix = s.components.length - 1
          · have hidxne : idx ≠ s.components.length - 1 := fun hh => hixne (hixlast.trans hh.symm)
            have hlx2 : s2.component_index.lookup x = some idx := by
              rw [hl2]
              exact lookup_remapLast_self hk hvnodup (hixlast ▸ hmem_x)
            have hidx_lt2 : idx < s.components.length - 1 :=
              Nat.lt_of_le_of_ne (Nat.le_pred_of_lt hidx_lt) hidxne
            have hval : s2.components.getD idx default = s.components.getD ix default := by
              rw [hcomps2, getD_dropLast _ _ (by rwa [listSwap_length]),
                getD_listSwap_left _ _ _ hidxne hidx_lt, hixlast]
            simp only [GetComponent, hlx2, hlx]
            rw [hval]
          · have hlx2 : s2.component_index.lookup x = some ix := by
              rw [hl2]
              exact lookup_remapLast_ne hlx hixlast
            have hix_lt2 : ix < s.components.length - 1 :=
              Nat.lt_of_le_of_ne (Nat.le_pred_of_lt hix_lt) hixlast
            have hval : s2.components.getD ix default = s.components.getD ix default := by
              rw [hcomps2, getD_dropLast _ _ (by rwa [listSwap_length]),
                getD_listSwap_other _ _ _ _ hixne hixlast]
            simp only [GetComponent, hlx2, hlx]
            rw [hval]

theorem getD_map_range [Inhabited α] :
    ∀ (l : List α), (List.range l.length).map (fun i => l.getD i default) = l := by
  intro l
  induction l with
  | nil => simp
  | cons a t ih =>
      rw [List.length_cons, List.range_succ_eq_map, List.map_cons, List.map_map]
      have hfun : ((fun i => (a :: t).getD i default) ∘ Nat.succ) =
          (fun i => t.getD i default) := by
        funext i
        rfl
      rw [hfun, ih]
      rfl

/-- In a well-formed storage, walking the entity map and reading each entity's
component yields, up to order, exactly the dense component array. -/
theorem wf_iteration_perm [Inhabited T] {s : DenseComponentStorage T} (hwf : s.Wf) :
    (s.component_index.map (fun q => s.components.getD q.2 default)).Perm s.components := by
  have h1 : s.component_index.map (fun q => s.components.getD q.2 default) =
      (s.component_index.map Prod.snd).map (fun i => s.components.getD i default) := by
    rw [List.map_map]
    rfl
  rw [h1]
  have h2 := hwf.2.map (fun i => s.components.getD i default)
  rw [getD_map_range] at h2
  exact h2

/-- Running any sequence of successful storage calls preserves well-formedness. -/
theorem wf_runOpsFrom [Inhabited T] :
    ∀ (ops : List StorageOp) (s s2 : DenseComponentStorage T),
      s.Wf → runOpsFrom s ops = some s2 → s2.Wf := by
  intro ops
  induction ops with
  | nil =>
      intro s s2 hwf h
      injection h with h
      exact h ▸ hwf
  | cons op rest ih =>
      intro s s2 hwf h
      unfold runOpsFrom at h
      cases hop : applyOp s op with
      | none => rw [hop] at h; exact absurd h (by simp)
      | some s3 =>
          rw [hop] at h
          refine ih s3 s2 ?_ h
          cases op with
          | add e => exact addComponent_wf hwf hop
          | remove e => exact (removeComponent_spec hwf hop).1

end DenseComponentStorage

open DenseComponentStorage in
/-- Claim C1: for every DenseComponentStorage and every finite sequence of
successful AddComponent and RemoveComponent calls starting from the empty
storage, the entity-to-index mapping is a bijection onto the positions 0 to
size-1 (distinct keys, mapped indices a permutation of the range), iterating
the positions of the dense array through the map yields exactly the stored
components, and GetComponent returns the component at each entity's mapped
index. -/
theorem claim_C1_dense_packing {T : Type} [Inhabited T] (ops : List StorageOp)
    (s : DenseComponentStorage T) (h : runOps ops = some s) :
    s.Wf ∧
    (s.component_index.map (fun q => s.components.getD q.2 default)).Perm s.components ∧
    ∀ e i, s.component_index.lookup e = some i →
      i < s.size ∧ s.GetComponent e = some (s.components.getD i default) := by
  have hwf : s.Wf := wf_runOpsFrom ops DenseComponentStorage.empty s empty_wf h
  refine ⟨hwf, wf_iteration_perm hwf, ?_⟩
  intro e i hl
  constructor
  · have hmem : i ∈ s.component_index.map Prod.snd :=
      List.mem_map.mpr ⟨(e, i), lookup_eq_some_mem hl, rfl⟩
    have := hwf.2.mem_iff.mp hmem
    simpa [DenseComponentStorage.size] using this
  · simp [GetComponent, hl]

open DenseComponentStorage in
/-- Witness for C1 at the call sequence add 3, add 7, add 9, remove 3. -/
theorem claim_C1_dense_packing_witness :
    runOps (T := Nat) [.add 3, .add 7, .add 9, .remove 3] =
      some ⟨[(9, 0), (7, 1)], [0, 0]⟩ ∧
    (⟨[(9, 0), (7, 1)], [0, 0]⟩ : DenseComponentStorage Nat).Wf :=
  ⟨by decide,
    (claim_C1_dense_packing [.add 3, .add 7, .add 9, .remove 3]
      ⟨[(9, 0), (7, 1)], [0, 0]⟩ (by decide)).1⟩

open DenseComponentStorage in
/-- Claim C5: AddComponent on an entity that already has a component fails
(throwing before any mutation, so the storage is unchanged); otherwise it
succeeds by appending a default-constructed component and recording the
mapping at index size, after which the entity has a component and the size has
grown by exactly one. -/
theorem claim_C5_add_component {T : Type} [Inhabited T]
    (s : DenseComponentStorage T) (e : Entity) :
    (s.HasComponent e = true → s.AddComponent e = none) ∧
    (s.HasComponent e = false →
      s.AddComponent e =
        some ⟨(e, s.size) :: s.component_index, s.components ++ [default]⟩ ∧
      (⟨(e, s.size) :: s.component_index, s.components ++ [default]⟩ :
        DenseComponentStorage T).HasComponent e = true ∧
      (⟨(e, s.size) :: s.component_index, s.components ++ [default]⟩ :
        DenseComponentStorage T).size = s.size + 1) := by
  constructor
  · intro h
    unfold AddComponent
    rw [if_pos h]
  · intro h
    refine ⟨addComponent_eq h, ?_, ?_⟩
    · simp [HasComponent, lookup_cons_self]
    · simp [DenseComponentStorage.size]

open DenseComponentStorage in
/-- Witness for C5 at the empty storage and entity 0. -/
theorem claim_C5_add_component_witness :
    (DenseComponentStorage.empty (T := Nat)).HasComponent 0 = false ∧
    ((DenseComponentStorage.empty (T := Nat)).AddComponent 0 =
        some ⟨[(0, 0)], [0]⟩ ∧
      (⟨[(0, 0)], [0]⟩ : DenseComponentStorage Nat).HasComponent 0 = true ∧
      (⟨[(0, 0)], [0]⟩ : DenseComponentStorage Nat).size = 0 + 1) :=
  ⟨by decide, (claim_C5_add_component DenseComponentStorage.empty 0).2 (by decide)⟩

/-! ## Correctness of the std::partition model -/

theorem skipSat_spec (p : Entity → Bool) (v : List Entity) :
    ∀ (fuel first last : Nat), last - first ≤ fuel → first ≤ last →
      first ≤ skipSat p fuel v first last ∧ skipSat p fuel v first last ≤ last ∧
      (∀ i, first ≤ i → i < skipSat p fuel v first last → p (v.getD i default) = true) ∧
      (skipSat p fuel v first last < last →
        p (v.getD (skipSat p fuel v first last) default) = false) := by
  intro fuel
  induction fuel with
  | zero =>
      intro first last h1 h2
      have h3 : first = last := by omega
      simp only [skipSat]
      refine ⟨by omega, le_refl _, ?_, by omega⟩
      intro i hi1 hi2
      exact absurd hi2 (by omega)
  | succ fuel ih =>
      intro first last h1 h2
      simp only [skipSat]
      by_cases hfl : first < last
      · rw [if_pos hfl]
        by_cases hp : p (v.getD first default) = true
        · rw [if_pos hp]
          obtain ⟨g1, g2, g3, g4⟩ := ih (first + 1) last (by omega) (by omega)
          refine ⟨by omega, g2, ?_, g4⟩
          intro i hi1 hi2
          by_cases hif : i = first
          · subst hif; exact hp
          · exact g3 i (by omega) hi2
        · rw [if_neg hp]
          refine ⟨le_refl _, by omega, ?_, fun _ => by simpa using hp⟩
          intro i hi1 hi2
          exact absurd hi2 (by omega)
      · rw [if_neg hfl]
        refine ⟨by omega, le_refl _, ?_, by omega⟩
        intro i hi1 hi2
        exact absurd hi2 (by omega)

theorem skipUnsat_spec (p : Entity → Bool) (v : List Entity) :
    ∀ (fuel first l : Nat), l - first ≤ fuel → first ≤ l →
      first ≤ skipUnsat p fuel v first l ∧ skipUnsat p fuel v first l ≤ l ∧
      (∀ i, skipUnsat p fuel v first l < i → i ≤ l → p (v.getD i default) = false) ∧
      (first < skipUnsat p fuel v first l →
        p (v.getD (skipUnsat p fuel v first l) default) = true) := by
  intro fuel
  induction fuel with
  | zero =>
      intro first l h1 h2
      have h3 : first = l := by omega
      simp only [skipUnsat]
      refine ⟨le_refl _, by omega, ?_, by omega⟩
      intro i hi1 hi2
      exact absurd hi2 (by omega)
  | succ fuel ih =>
      intro first l h1 h2
      simp only [skipUnsat]
      by_cases hfl : first < l
      · rw [if_pos hfl]
        by_cases hp : p (v.getD l default) = true
        · rw [if_pos hp]
          refine ⟨by omega, le_refl _, ?_, fun _ => hp⟩
          intro i hi1 hi2
          exact absurd hi2 (by omega)
        · rw [if_neg hp]
          obtain ⟨g1, g2, g3, g4⟩ := ih first (l - 1) (by omega) (by omega)
          refine ⟨g1, by omega, ?_, g4⟩
          intro i hi1 hi2
          by_cases hil : i = l
          · subst hil; simpa using hp
          · exact g3 i hi1 (by omega)
      · rw [if_neg hfl]
        refine ⟨le_refl _, h2, ?_, by omega⟩
        intro i hi1 hi2
        exact absurd hi2 (by omega)

open DenseComponentStorage in
theorem partitionFuel_spec (p : Entity → Bool) :
    ∀ (fuel : Nat) (v : List Entity) (first last : Nat),
      last - first ≤ fuel → first ≤ last → last ≤ v.length →
      (∀ i, i < first → p (v.getD i default) = true) →
      (∀ i, last ≤ i → i < v.length → p (v.getD i default) = false) →
      (partitionFuel p fuel v first last).1.Perm v ∧
      (partitionFuel p fuel v first last).1.length = v.length ∧
      (partitionFuel p fuel v first last).2 ≤ v.length ∧
      (∀ i, i < (partitionFuel p fuel v first last).2 →
        p ((partitionFuel p fuel v first last).1.getD i default) = true) ∧
      (∀ i, (partitionFuel p fuel v first last).2 ≤ i → i < v.length →
        p ((partitionFuel p fuel v first last).1.getD i default) = false) := by
  intro fuel
  induction fuel with
  | zero =>
      intro v first last h1 h2 h3 hpre hsuf
      have h4 : first = last := by omega
      simp only [partitionFuel]
      refine ⟨by trivial,
        by trivial, by omega, fun i hi => hpre i hi,
        fun i hi1 hi2 => ?_⟩
      exact hsuf i (by omega) hi2
  | succ fuel ih =>
      intro v first last h1 h2 h3 hpre hsuf
      simp only [partitionFuel]
      by_cases hfl : first < last
      · rw [if_pos hfl]
        obtain ⟨s1, s2, s3, s4⟩ :=
          skipSat_spec p v (last - first) first last (le_refl _) h2
        by_cases hflast : skipSat p (last - first) v first last < last
        · rw [if_pos hflast]
          obtain ⟨u1, u2, u3, u4⟩ :=
            skipUnsat_spec p v (last - 1 - skipSat p (last - first) v first last)
              (skipSat p (last - first) v first last) (last - 1) (le_refl _) (by omega)
          by_cases hfl2 : skipSat p (last - first) v first last <
              skipUnsat p (last - 1 - skipSat p (last - first) v first last) v
                (skipSat p (last - first) v first last) (last - 1)
          · rw [if_pos hfl2]
            -- abbreviations for readability of the proof state
            generalize hfab : skipSat p (last - first) v first last = f at *
            generalize hlab : skipUnsat p (last - 1 - f) v f (last - 1) = l2 at *
            have hflen : f < v.length := by omega
            have hl2len : l2 < v.length := by omega
            have hswlen : (listSwap v f l2).length = v.length := listSwap_length v f l2
            have hpre2 : ∀ i, i < f + 1 → p ((listSwap v f l2).getD i default) = true := by
              intro i hi
              by_cases hif : i = f
              · subst hif
                rw [getD_listSwap_left _ _ _ (by omega) hflen]
                exact u4 hfl2
              · rw [getD_listSwap_other _ _ _ _ (by omega) (by omega)]
                by_cases hifirst : i < first
                · exact hpre i hifirst
                · exact s3 i (by omega) (by omega)
            have hsuf2 : ∀ i, l2 ≤ i → i < (listSwap v f l2).length →
                p ((listSwap v f l2).getD i default) = false := by
              intro i hi1 hi2
              rw [hswlen] at hi2
              by_cases hil2 : i = l2
              · subst hil2
                rw [getD_listSwap_right _ _ _ hl2len]
                exact s4 hflast
              · rw [getD_listSwap_other _ _ _ _ (by omega) (by omega)]
                by_cases hilast : i ≤ last - 1
                · exact u3 i (by omega) hilast
                · exact hsuf i (by omega) hi2
            obtain ⟨r1, r2, r3, r4, r5⟩ :=
              ih (listSwap v f l2) (f + 1) l2 (by omega) (by omega)
                (by rw [hswlen]; omega) hpre2 (by rw [hswlen] at hsuf2 ⊢; exact hsuf2)
            refine ⟨r1.trans (listSwap_perm v f l2 hflen hl2len), ?_, ?_, r4, ?_⟩
            · rw [r2, hswlen]
            · rw [hswlen] at r3; exact r3
            · rw [hswlen] at r5; exact r5
          · rw [if_neg hfl2]
            generalize hfab : skipSat p (last - first) v first last = f at *
            generalize hlab : skipUnsat p (last - 1 - f) v f (last - 1) = l2 at *
            have hfl2e : l2 = f := by omega
            refine ⟨by trivial, by trivial, by omega, ?_, ?_⟩
            · intro i hi
              by_cases hifirst : i < first
              · exact hpre i hifirst
              · exact s3 i (by omega) hi
            · intro i hi1 hi2
              by_cases hif : i = f
              · subst hif; exact s4 hflast
              · by_cases hilast : i ≤ last - 1
                · exact u3 i (by omega) hilast
                · exact hsuf i (by omega) hi2
        · rw [if_neg hflast]
          generalize hfab : skipSat p (last - first) v first last = f at *
          have hfe : f = last := by omega
          refine ⟨by trivial, by trivial, by omega, ?_, ?_⟩
          · intro i hi
            by_cases hifirst : i < first
            · exact hpre i hifirst
            · exact s3 i (by omega) hi
          · intro i hi1 hi2
            exact hsuf i (by omega) hi2
      · rw [if_neg hfl]
        have h4 : first = last := by omega
        rw [show last - first = 0 from by omega]
        simp only [skipSat]
        refine ⟨by trivial, by trivial, by omega, ?_, ?_⟩
        · intro i hi
          exact hpre i (by omega)
        · intro i hi1 hi2
          exact hsuf i (by omega) hi2

/-- The std::partition call over a whole vector: the output is a permutation
of the input of the same length, the returned offset is in range, everything
before it satisfies the predicate and everything from it on does not. -/
theorem stdPartition_spec (p : Entity → Bool) (v : List Entity) :
    (stdPartition p v).1.Perm v ∧
    (stdPartition p v).1.length = v.length ∧
    (stdPartition p v).2 ≤ v.length ∧
    (∀ i, i < (stdPartition p v).2 →
      p ((stdPartition p v).1.getD i default) = true) ∧
    (∀ i, (stdPartition p v).2 ≤ i → i < v.length →
      p ((stdPartition p v).1.getD i default) = false) :=
  partitionFuel_spec p v.length v 0 v.length (by omega) (by omega) (le_refl _)
    (fun i hi => absurd hi (by omega)) (fun i hi1 hi2 => absurd hi2 (by omega))

/-- Claim C2, amended: EntitySet::Filter returns a new snapshot holding
exactly the entities satisfying the predicate counted with multiplicity — a
permutation of the order-preserving filter — and FilterInPlace narrows to the
same entity sequence; the original relative order is however not preserved in
general, since std::partition is not stable (see the counterexample). -/
theorem claim_C2_filter_perm (s : EntitySet) (p : Entity → Bool) :
    (s.Filter p).entities.Perm (s.entities.filter p) ∧
    (s.FilterInPlace p).entities = (s.Filter p).entities := by
  refine ⟨?_, rfl⟩
  obtain ⟨h1, h2, h3, h4, h5⟩ := stdPartition_spec p s.entities
  have hres : (s.Filter p).entities =
      (stdPartition p s.entities).1.take (stdPartition p s.entities).2 := rfl
  have htake : ((stdPartition p s.entities).1.take
      (stdPartition p s.entities).2).filter p =
      (stdPartition p s.entities).1.take (stdPartition p s.entities).2 := by
    apply List.filter_eq_self.mpr
    intro x hx
    obtain ⟨i, hi, hget⟩ := List.mem_iff_getElem.mp hx
    have hi2 : i < (stdPartition p s.entities).2 := by
      have := hi
      simp only [List.length_take] at this
      omega
    have hi3 : i < (stdPartition p s.entities).1.length := by
      have := hi
      simp only [List.length_take] at this
      omega
    have hval : ((stdPartition p s.entities).1.take (stdPartition p s.entities).2)[i] =
        (stdPartition p s.entities).1[i] := List.getElem_take _
    have := h4 i hi2
    rw [List.getD_eq_getElem?_getD, List.getElem?_eq_getElem hi3] at this
    rw [← hget, hval]
    simpa using this
  have hdrop : ((stdPartition p s.entities).1.drop
      (stdPartition p s.entities).2).filter p = [] := by
    apply List.filter_eq_nil_iff.mpr
    intro x hx
    obtain ⟨i, hi, hget⟩ := List.mem_iff_getElem.mp hx
    have hlen : i < (stdPartition p s.entities).1.length - (stdPartition p s.entities).2 := by
      have := hi
      simp only [List.length_drop] at this
      omega
    have hi3 : (stdPartition p s.entities).2 + i < (stdPartition p s.entities).1.length := by
      omega
    have hval : ((stdPartition p s.entities).1.drop (stdPartition p s.entities).2)[i] =
        (stdPartition p s.entities).1[(stdPartition p s.entities).2 + i] :=
      List.getElem_drop _
    have := h5 ((stdPartition p s.entities).2 + i) (by omega) (by omega)
    rw [List.getD_eq_getElem?_getD, List.getElem?_eq_getElem hi3] at this
    rw [← hget, hval]
    simpa using this
  have hfilter : (stdPartition p s.entities).1.filter p =
      (stdPartition p s.entities).1.take (stdPartition p s.entities).2 := by
    conv_lhs => rw [← List.take_append_drop (stdPartition p s.entities).2
      (stdPartition p s.entities).1]
    rw [List.filter_append, htake, hdrop, List.append_nil]
  rw [hres, ← hfilter]
  exact h1.filter p

/-- Counterexample for C2 as stated: on the snapshot holding entities 2, 1, 3
with the predicate selecting odd ids, Filter returns the sequence 3, 1 while
the order-preserving filter of the snapshot is 1, 3 — the relative order of
the surviving entities is not preserved. -/
theorem claim_C2_counterexample :
    (EntitySet.Filter ⟨[2, 1, 3]⟩ (fun e => e % 2 == 1)).entities = [3, 1] ∧
    List.filter (fun e => e % 2 == 1) [2, 1, 3] = [1, 3] ∧
    (EntitySet.Filter ⟨[2, 1, 3]⟩ (fun e => e % 2 == 1)).entities ≠
      List.filter (fun e => e % 2 == 1) [2, 1, 3] := by
  refine ⟨by decide, by decide, by decide⟩

open DenseComponentStorage in
/-- Claim C6: removing one entity's component from a well-formed storage does
not change the value read for any other entity held by the storage, despite
the internal swap of the last slot into the removed slot; the other entity
also remains present. -/
theorem claim_C6_remove_preserves_others {T : Type} [Inhabited T]
    (s s2 : DenseComponentStorage T) (e e2 : Entity)
    (hwf : s.Wf) (he : s.HasComponent e = true) (he2 : s.HasComponent e2 = true)
    (hne : e2 ≠ e) (h : s.RemoveComponent e = some s2) :
    s2.GetComponent e2 = s.GetComponent e2 ∧ s2.HasComponent e2 = true := by
  obtain ⟨_, _, _, h4, h5⟩ := removeComponent_spec hwf h
  exact ⟨h5 e2 hne, (h4 e2 hne).trans he2⟩

open DenseComponentStorage in
/-- Witness for C6: removing entity 0 swaps the last component into slot 0,
yet entity 2's value is still read back unchanged. -/
theorem claim_C6_remove_preserves_others_witness :
    (⟨[(0, 0), (1, 1), (2, 2)], [10, 20, 30]⟩ : DenseComponentStorage Nat).Wf ∧
    (⟨[(0, 0), (1, 1), (2, 2)], [10, 20, 30]⟩ :
        DenseComponentStorage Nat).RemoveComponent 0 =
      some ⟨[(1, 1), (2, 0)], [30, 20]⟩ ∧
    ((⟨[(1, 1), (2, 0)], [30, 20]⟩ : DenseComponentStorage Nat).GetComponent 2 =
        (⟨[(0, 0), (1, 1), (2, 2)], [10, 20, 30]⟩ :
          DenseComponentStorage Nat).GetComponent 2 ∧
      (⟨[(1, 1), (2, 0)], [30, 20]⟩ : DenseComponentStorage Nat).HasComponent 2 = true) :=
  ⟨by decide, by decide,
    claim_C6_remove_preserves_others _ _ 0 2 (by decide) (by decide) (by decide)
      (by decide) (by decide)⟩

/-! ## World-level claims -/

/-- Claim C3 (the code contradicts it): World::Reset clears entities,
components and systems but not the taskflow.  After RegisterSystem and Reset
the world still holds the stale task node (so it differs from a freshly
constructed World), and a renewed RegisterSystem leaves two task nodes for the
single registered system, where a fresh World would hold one — the next Run
hands both to the executor, the stale one through a dangling System pointer. -/
theorem claim_C3_reset_keeps_taskflow :
    ((World.init (V := Unit)).RegisterSystem 0).map World.Reset =
      some { taskflowTasks := [0] } ∧
    ({ taskflowTasks := [0] } : World Unit) ≠ World.init ∧
    ((World.init (V := Unit)).RegisterSystem 0).map World.Reset ≠ some World.init ∧
    ({ taskflowTasks := [0] } : World Unit).RegisterSystem 0 =
      some { systems := [0], taskflowTasks := [0, 0] } ∧
    (World.init (V := Unit)).RegisterSystem 0 =
      some { systems := [0], taskflowTasks := [0] } :=
  ⟨by decide, by decide, by decide, by decide, by decide⟩

/-- Claim C4 (the code contradicts it): World::AddComponent for an
unregistered component type does not throw; GetComponentStorage only asserts,
and its unordered_map operator[] default-inserts a null storage pointer —
modifying the component map — before the null pointer is dereferenced. -/
theorem claim_C4_add_unregistered_not_thrown :
    (World.init (V := Nat)).AddComponent 0 0 =
      World.AddOutcome.nullDeref { components := [(0, none)] } ∧
    ({ components := [(0, none)] } : World Nat).components ≠
      (World.init (V := Nat)).components :=
  ⟨by decide, by decide⟩

/-- Claim C10: destroying an in-bounds entity id that is already dead and is
not held by any registered storage is a silent no-op: every storage is skipped
(no MissingComponent throw is reachable) and the world is left unchanged. -/
theorem claim_C10_double_destroy_noop {V : Type} [Inhabited V] (w : World V) (e : Entity)
    (h1 : e < w.entities.length) (h2 : w.entities.getD e false = false)
    (h3 : w.components.all (fun q =>
      match q.2 with
      | none => false
      | some s => !s.HasComponent e) = true) :
    w.DestroyEntity e = w := by
  unfold World.DestroyEntity
  have hcomp : w.components.map (fun q =>
      match q.2 with
      | none => q
      | some s =>
          (q.1, some (if s.HasComponent e then (s.RemoveComponent e).getD s else s)))
      = w.components := by
    have hpt : ∀ q ∈ w.components, (fun q =>
        match q.2 with
        | none => q
        | some s =>
            (q.1, some (if s.HasComponent e then (s.RemoveComponent e).getD s else s))) q
        = id q := by
      intro q hq
      have := List.all_eq_true.mp h3 q hq
      cases hq2 : q.2 with
      | none => simp [hq2]
      | some s =>
          rw [hq2] at this
          simp only at this
          have hhas : s.HasComponent e = false := by
            cases hb : s.HasComponent e
            · rfl
            · rw [hb] at this; simp at this
          simp only [hq2, hhas, Bool.false_eq_true, if_false, id]
          rw [← hq2]
    rw [List.map_congr_left hpt, List.map_id]
  have hent : w.entities.set e false = w.entities := by
    have h4 : w.entities.getD e default = false := h2
    conv_lhs => rw [show (false : Bool) = w.entities.getD e default from h4.symm]
    exact set_getD_self _ _
  rw [hcomp, hent]

/-- Witness for C10: a dead in-bounds id not held by the single registered
storage; DestroyEntity leaves the world untouched. -/
theorem claim_C10_double_destroy_noop_witness :
    (1 < (⟨[true, false], [(5, some ⟨[(0, 0)], [7]⟩)], [], [], []⟩ :
      World Nat).entities.length) ∧
    (⟨[true, false], [(5, some ⟨[(0, 0)], [7]⟩)], [], [], []⟩ :
      World Nat).DestroyEntity 1 =
      ⟨[true, false], [(5, some ⟨[(0, 0)], [7]⟩)], [], [], []⟩ :=
  ⟨by decide,
    claim_C10_double_destroy_noop _ 1 (by decide) (by decide) (by decide)⟩

/-! ## CreateEntity (claim C7) -/

/-- The free-slot scan returns its accumulator when no scanned slot is free. -/
theorem scanFree_foldl_none (l : List Bool) :
    ∀ (m a : Nat), (∀ i, i < m → l.getD i false = true) →
      (List.range m).foldl (fun id i => if l.getD i false = false then i else id) a = a := by
  intro m
  induction m with
  | zero => intro a h; rfl
  | succ k ih =>
      intro a h
      rw [List.range_succ, List.foldl_append]
      simp only [List.foldl_cons, List.foldl_nil]
      have hk := h k (by omega)
      rw [ih a (fun i hi => h i (by omega)), if_neg (by rw [hk]; simp)]

/-- When some scanned slot is free, the scan returns a free slot in range. -/
theorem scanFree_foldl_free (l : List Bool) :
    ∀ (m a : Nat), (∃ i, i < m ∧ l.getD i false = false) →
      (List.range m).foldl (fun id i => if l.getD i false = false then i else id) a < m ∧
      l.getD ((List.range m).foldl
        (fun id i => if l.getD i false = false then i else id) a) false = false := by
  intro m
  induction m with
  | zero =>
      intro a h
      obtain ⟨i, hi, _⟩ := h
      exact absurd hi (by omega)
  | succ k ih =>
      intro a h
      rw [List.range_succ, List.foldl_append]
      simp only [List.foldl_cons, List.foldl_nil]
      by_cases hk : l.getD k false = false
      · rw [if_pos hk]
        exact ⟨by omega, hk⟩
      · rw [if_neg hk]
        have h2 : ∃ i, i < k ∧ l.getD i false = false := by
          obtain ⟨i, hi, hfree⟩ := h
          refine ⟨i, ?_, hfree⟩
          by_cases hik : i = k
          · subst hik; exact absurd hfree hk
          · omega
        obtain ⟨g1, g2⟩ := ih a h2
        exact ⟨by omega, g2⟩

/-- Claim C7: CreateEntity returns an id that is live on return; when a free
slot exists the returned id is an existing free slot and the table size is
unchanged; the table grows, by exactly kEntitySizeIncrement slots, only when
no slot is free, and in that case every slot other than the returned one keeps
its previous liveness (so the new slots are dead). -/
theorem claim_C7_create_entity {V : Type} (w : World V)
    (h : w.entities.length < kInvalidEntity) :
    ((w.CreateEntity).2.entities.getD (w.CreateEntity).1 false = true) ∧
    ((∃ i, i < w.entities.length ∧ w.entities.getD i false = false) →
      (w.CreateEntity).1 < w.entities.length ∧
      w.entities.getD (w.CreateEntity).1 false = false ∧
      (w.CreateEntity).2.entities.length = w.entities.length ∧
      ∀ j, j ≠ (w.CreateEntity).1 →
        (w.CreateEntity).2.entities.getD j false = w.entities.getD j false) ∧
    ((∀ i, i < w.entities.length → w.entities.getD i false = true) →
      (w.CreateEntity).1 = w.entities.length ∧
      (w.CreateEntity).2.entities.length = w.entities.length + kEntitySizeIncrement ∧
      ∀ j, j ≠ (w.CreateEntity).1 →
        (w.CreateEntity).2.entities.getD j false = w.entities.getD j false) := by
  by_cases hex : ∃ i, i < w.entities.length ∧ w.entities.getD i false = false
  · obtain ⟨hlt, hfree⟩ := scanFree_foldl_free w.entities w.entities.length
      kInvalidEntity hex
    have hne : World.scanFree w.entities ≠ kInvalidEntity := by
      unfold World.scanFree
      omega
    have hcreate : w.CreateEntity =
        (World.scanFree w.entities,
          { w with entities := w.entities.set (World.scanFree w.entities) true }) := by
      simp only [World.CreateEntity]
      rw [if_neg hne]
    rw [hcreate]
    dsimp only
    have hlt2 : World.scanFree w.entities < w.entities.length := hlt
    refine ⟨?_, ?_, ?_⟩
    · exact getD_set_self _ _ _ (by simpa using hlt2)
    · intro _
      refine ⟨hlt2, hfree, by simp [List.length_set], ?_⟩
      intro j hj
      exact getD_set_ne _ _ _ _ hj
    · intro hall
      have hlive := hall (World.scanFree w.entities) hlt2
      have hfree2 : w.entities.getD (World.scanFree w.entities) false = false := hfree
      rw [hlive] at hfree2
      exact absurd hfree2 (by simp)
  · have hall : ∀ i, i < w.entities.length → w.entities.getD i false = true := by
      intro i hi
      cases hb : w.entities.getD i false
      · exact absurd ⟨i, hi, hb⟩ hex
      · rfl
    have hscan : World.scanFree w.entities = kInvalidEntity :=
      scanFree_foldl_none w.entities w.entities.length kInvalidEntity hall
    have hcreate : w.CreateEntity =
        (w.entities.length,
          { w with entities := (w.entities ++
              List.replicate kEntitySizeIncrement false).set w.entities.length true }) := by
      simp only [World.CreateEntity]
      rw [if_pos hscan]
    rw [hcreate]
    dsimp only
    have hltgrown : w.entities.length <
        (w.entities ++ List.replicate kEntitySizeIncrement false).length := by
      simp [List.length_append, kEntitySizeIncrement]
    refine ⟨?_, ?_, ?_⟩
    · exact getD_set_self _ _ _ hltgrown
    · intro hex2
      exact absurd hex2 hex
    · intro _
      refine ⟨rfl, by simp [List.length_set, List.length_append], ?_⟩
      intro j hj
      rw [getD_set_ne _ _ _ _ hj]
      by_cases hjl : j < w.entities.length
      · exact getD_append_left _ _ _ hjl
      · have hlej : w.entities.length ≤ j := Nat.le_of_not_lt hjl
        have hrhs : w.entities.getD j false = false := getD_of_len_le _ _ hlej
        rw [getD_append_right _ _ _ hlej, hrhs]
        rw [List.getD_eq_getElem?_getD, List.getElem?_replicate]
        split <;> rfl

/-- Witness for C7: the table holds a free slot at index 1; CreateEntity hands
that slot out, marks it live, and does not grow the table. -/
theorem claim_C7_create_entity_witness :
    (⟨[true, false, true], [], [], [], []⟩ : World Unit).entities.length <
      kInvalidEntity ∧
    ((⟨[true, false, true], [], [], [], []⟩ : World Unit).CreateEntity).2.entities.getD
      ((⟨[true, false, true], [], [], [], []⟩ : World Unit).CreateEntity).1 false = true ∧
    ((⟨[true, false, true], [], [], [], []⟩ : World Unit).CreateEntity).1 <
      (⟨[true, false, true], [], [], [], []⟩ : World Unit).entities.length ∧
    (⟨[true, false, true], [], [], [], []⟩ : World Unit).entities.getD
      ((⟨[true, false, true], [], [], [], []⟩ : World Unit).CreateEntity).1 false = false := by
  have h := claim_C7_create_entity (V := Unit) ⟨[true, false, true], [], [], [], []⟩
    (by decide)
  have h2 := h.2.1 ⟨1, by decide, by decide⟩
  exact ⟨by decide, h.1, h2.1, h2.2.1⟩

/-! ## DestroyEntity and the dead-id invariant (claims C8, C10) -/

/-- The free-slot scan either reports no free slot or returns a free slot in
range. -/
theorem scanFree_cases (l : List Bool) :
    World.scanFree l = kInvalidEntity ∨
    (World.scanFree l < l.length ∧ l.getD (World.scanFree l) false = false) := by
  by_cases hex : ∃ i, i < l.length ∧ l.getD i false = false
  · right
    exact scanFree_foldl_free l l.length kInvalidEntity hex
  · left
    have hall : ∀ i, i < l.length → l.getD i false = true := by
      intro i hi
      cases hb : l.getD i false
      · exact absurd ⟨i, hi, hb⟩ hex
      · rfl
    exact scanFree_foldl_none l l.length kInvalidEntity hall

/-- CreateEntity never touches the component map. -/
theorem createEntity_components {V : Type} (w : World V) :
    (w.CreateEntity).2.components = w.components := by
  simp only [World.CreateEntity]
  by_cases hscan : World.scanFree w.entities = kInvalidEntity
  · rw [if_pos hscan]
  · rw [if_neg hscan]

/-- CreateEntity keeps every live entity live. -/
theorem createEntity_preserves_live {V : Type} (w : World V) (x : Entity)
    (hx : w.entities.getD x false = true) :
    (w.CreateEntity).2.entities.getD x false = true := by
  have hxlt : x < w.entities.length := by
    by_contra hge
    rw [getD_of_len_le _ _ (Nat.le_of_not_lt hge)] at hx
    exact absurd hx (by simp)
  simp only [World.CreateEntity]
  by_cases hscan : World.scanFree w.entities = kInvalidEntity
  · rw [if_pos hscan]
    dsimp only
    rw [getD_set_ne _ _ _ _ (Nat.ne_of_lt hxlt), getD_append_left _ _ _ hxlt]
    exact hx
  · rw [if_neg hscan]
    dsimp only
    rcases scanFree_cases w.entities with hc | hc
    · exact absurd hc hscan
    · by_cases hxid : x = World.scanFree w.entities
      · subst hxid
        exact getD_set_self _ _ _ hc.1
      · rw [getD_set_ne _ _ _ _ hxid]
        exact hx

/-- Every world reachable with adds restricted to live entities satisfies the
storage invariant: all storages well-formed and all keys live. -/
theorem reachLive_storageInv {V : Type} [Inhabited V] :
    ∀ (w : World V), ReachLive w → w.StorageInv := by
  intro w hreach
  induction hreach with
  | init =>
      intro q hq s hs
      simp [World.init] at hq
  | step w w2 op hr hstep hlive ih =>
      cases op with
      | registerComponent t =>
          simp only [World.stepOp, World.RegisterComponent] at hstep
          by_cases hreg : (w.components.lookup t).isSome = true
          · rw [if_pos hreg] at hstep
            exact absurd hstep (by simp)
          · rw [if_neg hreg] at hstep
            injection hstep with hstep
            subst hstep
            intro q hq s hs
            rcases List.mem_append.mp hq with h1 | h1
            · exact ih q h1 s hs
            · have hq2 : q = (t, some DenseComponentStorage.empty) :=
                List.mem_singleton.mp h1
              subst hq2
              simp only at hs
              injection hs with hs
              subst hs
              refine ⟨DenseComponentStorage.empty_wf, ?_⟩
              intro e he
              simp [DenseComponentStorage.HasComponent, DenseComponentStorage.empty,
                List.lookup] at he
      | create =>
          simp only [World.stepOp] at hstep
          injection hstep with hstep
          subst hstep
          intro q hq s hs
          rw [createEntity_components] at hq
          obtain ⟨hwf0, hlive0⟩ := ih q hq s hs
          exact ⟨hwf0, fun e he => createEntity_preserves_live w e (hlive0 e he)⟩
      | destroy e =>
          simp only [World.stepOp] at hstep
          by_cases he : e < w.entities.length
          · rw [if_pos he] at hstep
            injection hstep with hstep
            subst hstep
            intro q2 hq2 s hs
            have hq2b : q2 ∈ w.components.map (fun q =>
                match q.2 with
                | none => q
                | some s0 =>
                    (q.1, some (if s0.HasComponent e then (s0.RemoveComponent e).getD s0
                      else s0))) := hq2
            obtain ⟨q, hqmem, hfq⟩ := List.mem_map.mp hq2b
            cases hq0 : q.2 with
            | none =>
                simp only [hq0] at hfq
                subst hfq
                rw [hq0] at hs
                exact absurd hs (by simp)
            | some s0 =>
                simp only [hq0] at hfq
                subst hfq
                simp only at hs
                injection hs with hs
                obtain ⟨hwf0, hlive0⟩ := ih q hqmem s0 hq0
                by_cases hhas : s0.HasComponent e = true
                · obtain ⟨s2, hrem⟩ :=
                    Option.isSome_iff_exists.mp
                      (DenseComponentStorage.removeComponent_isSome_of_has hhas)
                  have hgetD : (s0.RemoveComponent e).getD s0 = s2 := by rw [hrem]; rfl
                  have hspec := DenseComponentStorage.removeComponent_spec hwf0 hrem
                  have hseq : s = s2 := by rw [← hs, if_pos hhas, hgetD]
                  subst hseq
                  refine ⟨hspec.1, ?_⟩
                  intro x hx
                  have hxe : x ≠ e := by
                    intro hxe
                    subst hxe
                    rw [hspec.2.2.1] at hx
                    exact absurd hx (by simp)
                  have hx0 : s0.HasComponent x = true := by
                    rw [← hspec.2.2.2.1 x hxe]
                    exact hx
                  have hlx := hlive0 x hx0
                  show ((w.entities.set e false).getD x false) = true
                  rw [getD_set_ne _ _ _ _ hxe]
                  exact hlx
                · have hhasf : s0.HasComponent e = false := by
                    cases hb : s0.HasComponent e
                    · rfl
                    · exact absurd hb hhas
                  have hseq : s = s0 := by rw [← hs, if_neg (by rw [hhasf]; simp)]
                  subst hseq
                  refine ⟨hwf0, ?_⟩
                  intro x hx
                  have hxe : x ≠ e := by
                    intro hxe
                    subst hxe
                    rw [hhasf] at hx
                    exact absurd hx (by simp)
                  have hlx := hlive0 x hx
                  show ((w.entities.set e false).getD x false) = true
                  rw [getD_set_ne _ _ _ _ hxe]
                  exact hlx
          · rw [if_neg he] at hstep
            exact absurd hstep (by simp)
      | add t e =>
          simp only [World.stepOp, World.AddComponent] at hstep
          cases hlt : w.components.lookup t with
          | none =>
              simp only [hlt] at hstep
              exact absurd hstep (by simp)
          | some os =>
              cases os with
              | none =>
                  simp only [hlt] at hstep
                  exact absurd hstep (by simp)
              | some s0 =>
                  simp only [hlt] at hstep
                  cases hadd : s0.AddComponent e with
                  | none =>
                      simp only [hadd] at hstep
                      exact absurd hstep (by simp)
                  | some s2 =>
                      simp only [hadd] at hstep
                      injection hstep with hstep
                      subst hstep
                      have hmem0 : (t, some s0) ∈ w.components := lookup_eq_some_mem hlt
                      obtain ⟨hwf0, hlive0⟩ := ih _ hmem0 s0 rfl
                      have hwf2 := DenseComponentStorage.addComponent_wf hwf0 hadd
                      have hlive_e : w.entities.getD e false = true := hlive t e rfl
                      intro q2 hq2 s hs
                      have hq2b : q2 ∈ w.components.map (fun q =>
                          if q.1 = t then (t, some s2) else q) := hq2
                      obtain ⟨q, hqmem, hfq⟩ := List.mem_map.mp hq2b
                      by_cases hqt : q.1 = t
                      · rw [if_pos hqt] at hfq
                        subst hfq
                        simp only at hs
                        injection hs with hs
                        subst hs
                        refine ⟨hwf2, ?_⟩
                        intro x hx
                        rcases (DenseComponentStorage.addComponent_has_iff hadd x).mp hx
                          with hxe | hx0
                        · subst hxe
                          exact hlive_e
                        · exact hlive0 x hx0
                      · rw [if_neg hqt] at hfq
                        subst hfq
                        exact ih q hqmem s hs
      | remove t e =>
          simp only [World.stepOp, World.storageRemoveComponent] at hstep
          cases hlt : w.components.lookup t with
          | none =>
              simp only [hlt] at hstep
              exact absurd hstep (by simp)
          | some os =>
              cases os with
              | none =>
                  simp only [hlt] at hstep
                  exact absurd hstep (by simp)
              | some s0 =>
                  simp only [hlt] at hstep
                  cases hrem : s0.RemoveComponent e with
                  | none =>
                      simp only [hrem] at hstep
                      exact absurd hstep (by simp)
                  | some s2 =>
                      simp only [hrem, Option.map_some'] at hstep
                      injection hstep with hstep
                      subst hstep
                      have hmem0 : (t, some s0) ∈ w.components := lookup_eq_some_mem hlt
                      obtain ⟨hwf0, hlive0⟩ := ih _ hmem0 s0 rfl
                      have hspec := DenseComponentStorage.removeComponent_spec hwf0 hrem
                      intro q2 hq2 s hs
                      have hq2b : q2 ∈ w.components.map (fun q =>
                          if q.1 = t then (t, some s2) else q) := hq2
                      obtain ⟨q, hqmem, hfq⟩ := List.mem_map.mp hq2b
                      by_cases hqt : q.1 = t
                      · rw [if_pos hqt] at hfq
                        subst hfq
                        simp only at hs
                        injection hs with hs
                        subst hs
                        refine ⟨hspec.1, ?_⟩
                        intro x hx
                        have hxe : x ≠ e := by
                          intro hxe
                          subst hxe
                          rw [hspec.2.2.1] at hx
                          exact absurd hx (by simp)
                        have hx0 : s0.HasComponent x = true := by
                          rw [← hspec.2.2.2.1 x hxe]
                          exact hx
                        exact hlive0 x hx0
                      · rw [if_neg hqt] at hfq
                        subst hfq
                        exact ih q hqmem s hs

/-- Claim C8, amended: DestroyEntity removes the entity's component from
every registered storage holding one (leaving the other storages byte-for-byte
unchanged and every other entity's membership and value intact) and marks the
id dead; and the invariant that a dead id never appears as a key in any
registered storage holds for every reachable world in which AddComponent is
only invoked on live entities — the code itself performs no liveness check in
AddComponent, which is what breaks the unrestricted invariant (see the
counterexample). -/
theorem claim_C8_destroy_and_dead_invariant {V : Type} [Inhabited V] :
    (∀ (w : World V) (e : Entity) (j : Nat)
        (q : TypeId × Option (DenseComponentStorage V)) (s : DenseComponentStorage V),
        e < w.entities.length →
        w.components[j]? = some q → q.2 = some s → s.Wf →
        (w.DestroyEntity e).entities.getD e false = false ∧
        (w.DestroyEntity e).components[j]? =
          some (q.1, some (if s.HasComponent e then (s.RemoveComponent e).getD s else s)) ∧
        (if s.HasComponent e then (s.RemoveComponent e).getD s else s).HasComponent e
          = false ∧
        (s.HasComponent e = false →
          (if s.HasComponent e then (s.RemoveComponent e).getD s else s) = s) ∧
        (∀ x, x ≠ e →
          (if s.HasComponent e then (s.RemoveComponent e).getD s else s).HasComponent x =
            s.HasComponent x ∧
          (if s.HasComponent e then (s.RemoveComponent e).getD s else s).GetComponent x =
            s.GetComponent x)) ∧
    (∀ w : World V, ReachLive w → ∀ e, w.entities.getD e false = false →
      ∀ q ∈ w.components, ∀ s : DenseComponentStorage V, q.2 = some s →
        s.HasComponent e = false) := by
  constructor
  · intro w e j q s he hj hs hwf
    have hdead : (w.DestroyEntity e).entities.getD e false = false := by
      show ((w.entities.set e false).getD e false) = false
      exact getD_set_self _ _ _ (by simpa using he)
    have hcomp : (w.DestroyEntity e).components[j]? =
        some (q.1, some (if s.HasComponent e then (s.RemoveComponent e).getD s else s)) := by
      show (w.components.map _)[j]? = _
      rw [List.getElem?_map, hj]
      simp only [Option.map_some']
      rw [show q = (q.1, q.2) from rfl, hs]
    refine ⟨hdead, hcomp, ?_, ?_, ?_⟩
    · by_cases hhas : s.HasComponent e = true
      · rw [if_pos hhas]
        obtain ⟨s2, hrem⟩ := Option.isSome_iff_exists.mp
          (DenseComponentStorage.removeComponent_isSome_of_has hhas)
        rw [hrem]
        exact (DenseComponentStorage.removeComponent_spec hwf hrem).2.2.1
      · rw [if_neg hhas]
        cases hb : s.HasComponent e
        · rfl
        · exact absurd hb hhas
    · intro hhasf
      rw [if_neg (by rw [hhasf]; simp)]
    · intro x hx
      by_cases hhas : s.HasComponent e = true
      · rw [if_pos hhas]
        obtain ⟨s2, hrem⟩ := Option.isSome_iff_exists.mp
          (DenseComponentStorage.removeComponent_isSome_of_has hhas)
        rw [hrem]
        have hspec := DenseComponentStorage.removeComponent_spec hwf hrem
        exact ⟨hspec.2.2.2.1 x hx, hspec.2.2.2.2 x hx⟩
      · rw [if_neg hhas]
        exact ⟨rfl, rfl⟩
  · intro w hreach e hdead q hq s hs
    cases hb : s.HasComponent e
    · rfl
    · have := (reachLive_storageInv w hreach q hq s hs).2 e hb
      rw [hdead] at this
      exact absurd this (by simp)

set_option maxRecDepth 4000 in
/-- Counterexample for the unrestricted invariant in C8: the operation
sequence register, create, destroy, then AddComponent on the now-dead id 0
succeeds — AddComponent never checks liveness — and reaches a state in which
the dead id 0 is a key of the registered storage. -/
theorem claim_C8_counterexample :
    runWorldOps (V := Unit) [.registerComponent 0, .create, .destroy 0, .add 0 0] =
      some { entities := List.replicate 128 false,
             components := [(0, some ⟨[(0, 0)], [()]⟩)] } ∧
    (List.replicate 128 false).getD 0 false = false ∧
    DenseComponentStorage.HasComponent
      (⟨[(0, 0)], [()]⟩ : DenseComponentStorage Unit) 0 = true :=
  ⟨by decide, by decide, by decide⟩

/-- Witness for C8 at a world holding one live entity 0 with a component in
the single registered storage: destroying 0 empties the storage, marks 0
dead, and the whole conjunction instantiates; the invariant part instantiates
at the freshly constructed world after one register-create-add sequence. -/
theorem claim_C8_destroy_and_dead_invariant_witness :
    (((⟨[true], [(7, some ⟨[(0, 0)], [5]⟩)], [], [], []⟩ :
        World Nat).DestroyEntity 0).entities.getD 0 false = false ∧
      ((⟨[true], [(7, some ⟨[(0, 0)], [5]⟩)], [], [], []⟩ :
        World Nat).DestroyEntity 0).components[0]? =
        some (7, some (if DenseComponentStorage.HasComponent
            (⟨[(0, 0)], [5]⟩ : DenseComponentStorage Nat) 0 then
          (DenseComponentStorage.RemoveComponent
            (⟨[(0, 0)], [5]⟩ : DenseComponentStorage Nat) 0).getD ⟨[(0, 0)], [5]⟩
          else ⟨[(0, 0)], [5]⟩))) ∧
    DenseComponentStorage.HasComponent
      (⟨[(0, 0)], [()]⟩ : DenseComponentStorage Unit) 5 = false := by
  constructor
  · have h := (claim_C8_destroy_and_dead_invariant (V := Nat)).1
      ⟨[true], [(7, some ⟨[(0, 0)], [5]⟩)], [], [], []⟩ 0 0
      (7, some ⟨[(0, 0)], [5]⟩) ⟨[(0, 0)], [5]⟩ (by decide) (by decide) rfl (by decide)
    exact ⟨h.1, h.2.1⟩
  · have hr1 : ReachLive (V := Unit)
        { components := [(0, some DenseComponentStorage.empty)] } :=
      ReachLive.step World.init _ (.registerComponent 0) ReachLive.init (by decide)
        (fun t e h => by cases h)
    have hr2 : ReachLive (V := Unit)
        { entities := (List.replicate 128 false).set 0 true,
          components := [(0, some DenseComponentStorage.empty)] } :=
      ReachLive.step _ _ .create hr1 (by decide) (fun t e h => by cases h)
    have hr3 : ReachLive (V := Unit)
        { entities := (List.replicate 128 false).set 0 true,
          components := [(0, some ⟨[(0, 0)], [()]⟩)] } :=
      ReachLive.step _ _ (.add 0 0) hr2 (by decide) (fun t e h => by cases h; decide)
    exact (claim_C8_destroy_and_dead_invariant (V := Unit)).2 _ hr3 5 (by decide)
      (0, some ⟨[(0, 0)], [()]⟩) (by decide) ⟨[(0, 0)], [()]⟩ rfl

/-! ## Scheduler correctness (claim C9) -/

/-- RegisterSystem and Precede keep the task list equal to the system list,
the systems distinct, and every edge between registered systems. -/
theorem buildSchedFrom_inv :
    ∀ (ops : List SchedOp) (w w2 : World Unit),
      (w.taskflowTasks = w.systems ∧ w.systems.Nodup ∧
        ∀ q ∈ w.taskflowEdges, q.1 ∈ w.systems ∧ q.2 ∈ w.systems) →
      buildSchedFrom w ops = some w2 →
      (w2.taskflowTasks = w2.systems ∧ w2.systems.Nodup ∧
        ∀ q ∈ w2.taskflowEdges, q.1 ∈ w2.systems ∧ q.2 ∈ w2.systems) := by
  intro ops
  induction ops with
  | nil =>
      intro w w2 hinv h
      injection h with h
      subst h
      exact hinv
  | cons op rest ih =>
      intro w w2 hinv h
      cases op with
      | reg t =>
          simp only [buildSchedFrom] at h
          cases hreg : w.RegisterSystem t with
          | none => rw [hreg] at h; exact absurd h (by simp)
          | some w3 =>
              rw [hreg] at h
              simp only [World.RegisterSystem] at hreg
              by_cases hc : w.systems.contains t = true
              · rw [if_pos hc] at hreg
                exact absurd hreg (by simp)
              · rw [if_neg hc] at hreg
                injection hreg with hreg
                subst hreg
                refine ih _ w2 ?_ h
                have htn : t ∉ w.systems := by
                  intro hmem
                  exact hc (by simpa using hmem)
                refine ⟨?_, ?_, ?_⟩
                · show w.taskflowTasks ++ [t] = w.systems ++ [t]
                  rw [hinv.1]
                · show (w.systems ++ [t]).Nodup
                  rw [List.nodup_append]
                  exact ⟨hinv.2.1, List.nodup_singleton t,
                    fun a ha hb => by
                      rw [List.mem_singleton.mp hb] at ha
                      exact htn ha⟩
                · intro q hq
                  have := hinv.2.2 q hq
                  exact ⟨List.mem_append_left _ this.1, List.mem_append_left _ this.2⟩
      | prec t0 t1 =>
          simp only [buildSchedFrom] at h
          cases hpre : w.Precede t0 t1 with
          | none => rw [hpre] at h; exact absurd h (by simp)
          | some w3 =>
              rw [hpre] at h
              simp only [World.Precede] at hpre
              by_cases hc : (w.systems.contains t0 && w.systems.contains t1) = true
              · rw [if_pos hc] at hpre
                injection hpre with hpre
                subst hpre
                refine ih _ w2 ?_ h
                obtain ⟨hc0, hc1⟩ := Bool.and_eq_true_iff.mp hc
                refine ⟨hinv.1, hinv.2.1, ?_⟩
                intro q hq
                rcases List.mem_append.mp hq with h1 | h1
                · exact hinv.2.2 q h1
                · rw [List.mem_singleton.mp h1]
                  exact ⟨by simpa using hc0, by simpa using hc1⟩
              · rw [if_neg hc] at hpre
                exact absurd hpre (by simp)

/-- The tasks completed during any executor run are pairwise distinct. -/
theorem execTrace_nodup {g : TaskGraph} {σ : List TypeId}
    (h : g.ExecTrace σ) : σ.Nodup := by
  induction h with
  | nil => exact List.nodup_nil
  | snoc done t hpref hcan ih =>
      rw [List.nodup_append]
      exact ⟨ih, List.nodup_singleton t,
        fun a ha hb => by
          rw [List.mem_singleton.mp hb] at ha
          exact hcan.2.1 ha⟩

/-- Only emplaced tasks are ever run. -/
theorem execTrace_subset {g : TaskGraph} {σ : List TypeId}
    (h : g.ExecTrace σ) : ∀ x ∈ σ, x ∈ g.tasks := by
  induction h with
  | nil => intro x hx; simp at hx
  | snoc done t hpref hcan ih =>
      intro x hx
      rcases List.mem_append.mp hx with h1 | h1
      · exact ih x h1
      · rw [List.mem_singleton.mp h1]
        exact hcan.1

/-- Whenever the target of a precedence edge runs, the source of the edge has
already completed: the run splits at the target's occurrence and the source
lies in the completed prefix. -/
theorem execTrace_edge_before {g : TaskGraph} {σ : List TypeId}
    (h : g.ExecTrace σ) (q : TypeId × TypeId) (hq : q ∈ g.edges) :
    q.2 ∈ σ → ∃ l1 l2, σ = l1 ++ q.2 :: l2 ∧ q.1 ∈ l1 := by
  induction h with
  | nil => intro hb; simp at hb
  | snoc done t hpref hcan ih =>
      intro hb
      rcases List.mem_append.mp hb with h1 | h1
      · obtain ⟨l1, l2, hsplit, hmem⟩ := ih h1
        exact ⟨l1, l2 ++ [t], by rw [hsplit]; simp, hmem⟩
      · have hbt : q.2 = t := List.mem_singleton.mp h1
        refine ⟨done, [], by rw [hbt], ?_⟩
        exact hcan.2.2 q hq hbt

/-- In an acyclic graph whose edges stay inside the task set, a maximal run
has executed every task. -/
theorem maximalExec_complete {g : TaskGraph} (rank : TypeId → Nat)
    (hacyc : ∀ q ∈ g.edges, rank q.1 < rank q.2)
    (hclosed : ∀ q ∈ g.edges, q.1 ∈ g.tasks)
    {σ : List TypeId} (hmax : g.MaximalExec σ) : ∀ t ∈ g.tasks, t ∈ σ := by
  intro t ht
  by_contra htn
  have htU : t ∈ g.tasks.filter (fun x => decide (x ∉ σ)) :=
    List.mem_filter.mpr ⟨ht, by simpa using htn⟩
  cases hargmin : (g.tasks.filter (fun x => decide (x ∉ σ))).argmin rank with
  | none =>
      rw [List.argmin_eq_none] at hargmin
      rw [hargmin] at htU
      simp at htU
  | some u =>
      have huU : u ∈ g.tasks.filter (fun x => decide (x ∉ σ)) :=
        List.argmin_mem hargmin
      obtain ⟨huT, huN⟩ := List.mem_filter.mp huU
      have huN2 : u ∉ σ := by simpa using huN
      apply hmax.2 u
      refine ⟨huT, huN2, ?_⟩
      intro q hq hq2
      by_contra hpn
      have hpU : q.1 ∈ g.tasks.filter (fun x => decide (x ∉ σ)) :=
        List.mem_filter.mpr ⟨hclosed q hq, by simpa using hpn⟩
      have hle : rank u ≤ rank q.1 := List.le_of_mem_argmin hpU hargmin
      have hlt : rank q.1 < rank q.2 := hacyc q hq
      rw [hq2] at hlt
      omega

/-- Claim C9: in a World built by successful RegisterSystem and Precede
calls whose precedence edges admit a topological ranking (an acyclic graph),
every completed executor run — any maximal task sequence respecting the task
graph, as modelled from the spec for the vendored taskflow library — executes
exactly the registered systems, each exactly once, and for every declared
edge the predecessor system's task completes (its position lies in the
already-executed prefix, so in this sequentially consistent model all its
mutations are visible) strictly before the successor system's task starts. -/
theorem claim_C9_scheduler (ops : List SchedOp) (w : World Unit)
    (hbuild : buildSched ops = some w)
    (rank : TypeId → Nat)
    (hacyc : ∀ q ∈ w.taskGraph.edges, rank q.1 < rank q.2)
    (σ : List TypeId) (hmax : w.taskGraph.MaximalExec σ) :
    (∀ t, t ∈ w.systems ↔ t ∈ σ) ∧
    (∀ t ∈ w.systems, σ.count t = 1) ∧
    (∀ q ∈ w.taskGraph.edges, ∃ l1 l2, σ = l1 ++ q.2 :: l2 ∧ q.1 ∈ l1) := by
  have hinv := buildSchedFrom_inv ops World.init w
    ⟨rfl, List.nodup_nil, by simp [World.init]⟩ hbuild
  have htasks : w.taskGraph.tasks = w.systems := hinv.1
  have hclosed : ∀ q ∈ w.taskGraph.edges, q.1 ∈ w.taskGraph.tasks := by
    intro q hq
    rw [htasks]
    exact (hinv.2.2 q hq).1
  have hcomplete := maximalExec_complete rank hacyc hclosed hmax
  have hmem : ∀ t, t ∈ w.systems ↔ t ∈ σ := by
    intro t
    constructor
    · intro ht
      exact hcomplete t (by rw [htasks]; exact ht)
    · intro ht
      rw [← htasks]
      exact execTrace_subset hmax.1 t ht
  refine ⟨hmem, ?_, ?_⟩
  · intro t ht
    exact List.count_eq_one_of_mem (execTrace_nodup hmax.1) ((hmem t).mp ht)
  · intro q hq
    refine execTrace_edge_before hmax.1 q hq ?_
    exact (hmem q.2).mp (hinv.2.2 q hq).2

/-- Witness for C9: two systems with one precedence edge; the run executing
system 0 then system 1 is a maximal execution, and both systems run exactly
once. -/
theorem claim_C9_scheduler_witness :
    buildSched [.reg 0, .reg 1, .prec 0 1] =
      some { systems := [0, 1], taskflowTasks := [0, 1], taskflowEdges := [(0, 1)] } ∧
    List.count 0 [0, 1] = 1 ∧ List.count 1 [0, 1] = 1 := by
  have hbuild : buildSched [.reg 0, .reg 1, .prec 0 1] =
      some { systems := [0, 1], taskflowTasks := [0, 1], taskflowEdges := [(0, 1)] } := by
    decide
  have he0 : TaskGraph.ExecTrace
      ({ systems := [0, 1], taskflowTasks := [0, 1], taskflowEdges := [(0, 1)] } :
        World Unit).taskGraph [0] :=
    TaskGraph.ExecTrace.snoc [] 0 TaskGraph.ExecTrace.nil
      ⟨by decide, by decide, by decide⟩
  have he1 : TaskGraph.ExecTrace
      ({ systems := [0, 1], taskflowTasks := [0, 1], taskflowEdges := [(0, 1)] } :
        World Unit).taskGraph [0, 1] :=
    TaskGraph.ExecTrace.snoc [0] 1 he0 ⟨by decide, by decide, by decide⟩
  have hmax : TaskGraph.MaximalExec
      ({ systems := [0, 1], taskflowTasks := [0, 1], taskflowEdges := [(0, 1)] } :
        World Unit).taskGraph [0, 1] :=
    ⟨he1, fun t h => h.2.1 h.1⟩
  have h := claim_C9_scheduler [.reg 0, .reg 1, .prec 0 1]
    { systems := [0, 1], taskflowTasks := [0, 1], taskflowEdges := [(0, 1)] }
    hbuild (fun t => t) (by decide) [0, 1] hmax
  exact ⟨hbuild, h.2.1 0 (by decide), h.2.1 1 (by decide)⟩

end Yecs
